import Mathlib

/-!
Verification development for the git-branchless core: the hook-installation
module (src/init.rs) and the smartlog pipeline (event log, rewrite graph,
visibility resolver, commit graph builder, renderer) described by the
specification.  Functions from src/init.rs are embedded directly; the
smartlog pipeline, whose implementation is exercised only through its test
suite here, is modelled from the specification.
-/

namespace Branchless

/-! ### Embedding of src/init.rs -/

/-- Constant SHEBANG from src/init.rs line 41. -/
def SHEBANG : String := "#!/bin/sh"

/-- Constant UPDATE_MARKER_START from src/init.rs line 42. -/
def UPDATE_MARKER_START : String := "## START BRANCHLESS CONFIG"

/-- Constant UPDATE_MARKER_END from src/init.rs line 43. -/
def UPDATE_MARKER_END : String := "## END BRANCHLESS CONFIG"

/-- Strip one trailing carriage return, as Rust `str::lines` does for each
line that was terminated by a newline. -/
def stripTrailingCR (l : List Char) : List Char :=
  if l.getLast? = some '\r' then l.dropLast else l

/-- Accumulator-based splitter for Rust `str::lines`: split at every newline
character; a piece terminated by a newline has one trailing carriage return
stripped; a final unterminated piece is kept verbatim; a trailing newline
produces no final empty piece. -/
def linesAux : List Char → List Char → List (List Char)
  | acc, [] => if acc.isEmpty then [] else [acc]
  | acc, c :: cs =>
    if c = '\n' then stripTrailingCR acc :: linesAux [] cs
    else linesAux (acc ++ [c]) cs

/-- Embedding of Rust `str::lines` as used by `update_between_lines`. -/
def rustLines (s : String) : List String :=
  (linesAux [] s.data).map (fun l => String.mk l)

/-- Concatenate a list of lines, terminating each with a newline.  This is
how `update_between_lines` rebuilds its output buffer. -/
def joinLines (ls : List String) : String :=
  ls.foldr (fun l acc => l ++ "\n" ++ acc) ""

/-- Loop body of `update_between_lines` (src/init.rs lines 45-67): iterate
over the lines of the input; on the START marker emit the marker, the
replacement text and the END marker and start ignoring; on the END marker
stop ignoring; otherwise copy the line unless ignoring. -/
def ublGo (updated_lines : String) : List String → Bool → String
  | [], _ => ""
  | line :: rest, ign =>
    if line = UPDATE_MARKER_START then
      UPDATE_MARKER_START ++ "\n" ++ updated_lines ++ UPDATE_MARKER_END ++ "\n"
        ++ ublGo updated_lines rest true
    else if line = UPDATE_MARKER_END then
      ublGo updated_lines rest false
    else if ign then
      ublGo updated_lines rest ign
    else
      line ++ "\n" ++ ublGo updated_lines rest ign

/-- Embedding of `update_between_lines` from src/init.rs lines 45-67. -/
def update_between_lines (lines : String) (updated_lines : String) : String :=
  ublGo updated_lines (rustLines lines) false

/-- Proof device: the `update_between_lines` loop expressed on line lists,
with the replacement text given by its list of lines.  `ublGo` agrees with
`joinLines` of this function when the replacement text is a clean
newline-terminated block. -/
def processedLines (uls : List String) : List String → Bool → List String
  | [], _ => []
  | line :: rest, ign =>
    if line = UPDATE_MARKER_START then
      UPDATE_MARKER_START :: (uls ++ UPDATE_MARKER_END :: processedLines uls rest true)
    else if line = UPDATE_MARKER_END then
      processedLines uls rest false
    else if ign then
      processedLines uls rest ign
    else
      line :: processedLines uls rest ign

/-- Hook kinds from src/init.rs lines 16-23. -/
inductive Hook
  | RegularHook (path : String)
  | MultiHook (path : String)
deriving DecidableEq

/-- Outcome of the `std::fs::read_to_string` call inside
`update_hook_contents`, passed in explicitly in this embedding. -/
inductive ReadResult
  | ok (contents : String)
  | notFound
  | otherError (msg : String)
deriving DecidableEq

/-- Embedding of `update_hook_contents` from src/init.rs lines 69-115.  The
result is the pair of the path written to and the contents written, or the
propagated error; a returned error means no file is written. -/
def update_hook_contents (hook : Hook) (hook_contents : String)
    (read : ReadResult) : Except String (String × String) :=
  match hook with
  | .RegularHook path =>
    match read with
    | .ok lines => .ok (path, update_between_lines lines hook_contents)
    | .notFound =>
      .ok (path, SHEBANG ++ "\n" ++ UPDATE_MARKER_START ++ "\n"
        ++ hook_contents ++ "\n" ++ UPDATE_MARKER_END ++ "\n")
    | .otherError msg => .error msg
  | .MultiHook path => .ok (path, hook_contents)

/-- Abstract syntax of the small fragment of shell used by the hook scripts
installed by `install_hooks` (src/init.rs lines 131-179). -/
inductive ShellCmd
  | invokeBranchless (subcommand : String)
  | echoLine (msg : String)
  | orElse (a b : ShellCmd)
  | andThen (a b : ShellCmd)
  | subshell (c : ShellCmd)

/-- Shell semantics for `ShellCmd`: `branchlessExit` gives the exit status
of each `git branchless <subcommand>` invocation; `echo` always succeeds
and prints its line; `a || b` runs `b` only when `a` fails and succeeds if
either does; `a ; b` has the status of `b`; a subshell has the status of
its body.  Returns the exit status and the printed lines. -/
def runShell (branchlessExit : String → Bool) : ShellCmd → Bool × List String
  | .invokeBranchless sub => (branchlessExit sub, [])
  | .echoLine msg => (true, [msg])
  | .orElse a b =>
    let ra := runShell branchlessExit a
    if ra.1 then ra
    else
      let rb := runShell branchlessExit b
      (rb.1, ra.2 ++ rb.2)
  | .andThen a b =>
    let ra := runShell branchlessExit a
    let rb := runShell branchlessExit b
    (rb.1, ra.2 ++ rb.2)
  | .subshell c => runShell branchlessExit c

/-- The reference-transaction hook script installed by `install_hooks`
(src/init.rs lines 164-177): invoke the ingestion command, and on failure
run a subshell printing three warning lines. -/
def reference_transaction_hook_script : ShellCmd :=
  .orElse (.invokeBranchless "hook-reference-transaction")
    (.subshell
      (.andThen (.echoLine "branchless: Failed to process reference transaction!")
        (.andThen
          (.echoLine "branchless: Some events (e.g. branch updates) may have been lost.")
          (.echoLine "branchless: This is a bug. Please report it."))))

/-! ### Smartlog pipeline, modelled from the specification

The event log, rewrite graph, visibility resolver, commit graph builder and
smartlog renderer of this repository are exercised here only through
src/tests/command/test_smartlog.rs; their implementation files are not part
of this source tree.  The definitions below are modelled from the
specification (sections 3, 4.3, 4.4, 4.5, 4.6), with the behaviours the
specification leaves open resolved the way the committed smartlog tests
pin them down. -/

/-- Modelled from the spec: CommitId is an opaque identity, only stored and
compared; commit ids are modelled as natural numbers throughout, and this
alias documents that reading. -/
abbrev CommitId := Nat

/-- Modelled from the spec: a branch as enumerated by the repository
adapter, with its target commit, a remote flag, and a flag marking the
configured main branch (local or its tracked remote). -/
structure Branch where
  name : String
  target : Nat
  isRemote : Bool
  isMain : Bool
deriving DecidableEq

/-- Modelled from the spec: the closed tagged-variant set of events of the
event log store (section 3); the event id of an event is its position in
the log, so later positions are later events. -/
inductive Event
  | CommitCreated (commit : Nat)
  | RewriteEvent (old : Nat) (new : Option Nat)
  | RefUpdateEvent (refName : String) (old : Option Nat) (new : Option Nat)
  | HideEvent (commit : Nat)
  | UnhideEvent (commit : Nat)
deriving DecidableEq

/-- Modelled from the spec: the snapshot of repository state and event log
taken at invocation start, from which a smartlog invocation computes its
output.  `commits` is the finite universe of commit ids, `parents` the
read-only parent adjacency, `events` the replayed event log in event-id
order. -/
structure RepoState where
  commits : List Nat
  parents : Nat → List Nat
  head : Nat
  branches : List Branch
  events : List Event

/-- Fuel-bounded ancestry test: `reachFuel st f s c` is true when `c` is
reachable from `s` by following parent links, using at most `f` expansion
steps.  Parent chains of acyclic repositories are covered once the fuel
reaches the number of commits. -/
def reachFuel (st : RepoState) : Nat → Nat → Nat → Bool
  | 0, s, c => decide (s = c)
  | fuel + 1, s, c =>
    decide (s = c) || (st.parents s).any (fun p => reachFuel st fuel p c)

/-- Ancestry test with the standard fuel of one step per commit. -/
def reachB (st : RepoState) (s c : Nat) : Bool :=
  reachFuel st st.commits.length s c

/-- Reachability through parent links, as a relation. -/
inductive Reaches (st : RepoState) : Nat → Nat → Prop
  | refl (c : Nat) : Reaches st c c
  | step {s p c : Nat} : p ∈ st.parents s → Reaches st p c → Reaches st s c

/-- Step function replaying one event into the visibility record of a
commit: a Hide or Unhide event for the commit overwrites the record. -/
def visStep (c : Nat) (acc : Option Bool) (e : Event) : Option Bool :=
  match e with
  | .HideEvent x => if x = c then some true else acc
  | .UnhideEvent x => if x = c then some false else acc
  | _ => acc

/-- Modelled from the spec: the VisibilityRecord of a commit, the most
recent Hide or Unhide event for it, last write wins (section 3). -/
def latestVis (st : RepoState) (c : Nat) : Option Bool :=
  st.events.foldl (visStep c) none

/-- A commit is manually hidden when its latest Hide/Unhide record is a
Hide. -/
def manuallyHidden (st : RepoState) (c : Nat) : Bool :=
  latestVis st c == some true

/-- Modelled from the spec: the rewrite graph edge out of a commit, the
last RewriteEvent per old id winning (section 4.3); `some none` means the
commit was dropped. -/
def rewriteTarget (st : RepoState) (c : Nat) : Option (Option Nat) :=
  st.events.foldl
    (fun acc e =>
      match e with
      | .RewriteEvent old new => if old = c then some new else acc
      | _ => acc)
    none

/-- Modelled from the spec: follow rewrite edges until no outgoing edge, a
deleted target, or a detected cycle (treated as resolved to the starting
commit); the boolean reports whether the resolved target still exists
(section 4.3). -/
def resolveAux (st : RepoState) (start : Nat) :
    Nat → List Nat → Nat → Nat × Bool
  | 0, _, c => (c, true)
  | fuel + 1, visited, c =>
    match rewriteTarget st c with
    | none => (c, true)
    | some none => (c, false)
    | some (some n) =>
      if n ∈ visited then (start, true)
      else resolveAux st start fuel (n :: visited) n

/-- Modelled from the spec: `resolve_latest` with cycle detection
(section 4.3). -/
def resolveLatest (st : RepoState) (c : Nat) : Nat × Bool :=
  resolveAux st c st.events.length [c] c

/-- Modelled from the spec: `is_obsolete` holds when `resolve_latest`
moves off the commit and the resolved target still exists (section 4.3). -/
def isObsolete (st : RepoState) (c : Nat) : Bool :=
  let r := resolveLatest st c
  decide (r.1 ≠ c) && r.2

/-- Some branch points directly at the commit. -/
def isBranchTip (st : RepoState) (c : Nat) : Bool :=
  st.branches.any (fun b => b.target == c)

/-- Modelled from the spec: the commit is an ancestor of the configured
main branch, local or tracked remote (section 4.4 rule 2). -/
def isMainAncB (st : RepoState) (c : Nat) : Bool :=
  st.branches.any (fun b => b.isMain && reachB st b.target c)

/-- The commit is reachable from some branch other than the configured
main branch. -/
def otherBranchReach (st : RepoState) (c : Nat) : Bool :=
  st.branches.any (fun b => !b.isMain && reachB st b.target c)

/-- The commit is reachable from HEAD or from any branch
(section 4.4 rule 4). -/
def anyTipReach (st : RepoState) (c : Nat) : Bool :=
  reachB st st.head c || st.branches.any (fun b => reachB st b.target c)

/-- Branch names pointing at a commit, sorted so that output does not
depend on the enumeration order of the branches. -/
def branchNamesAt (st : RepoState) (c : Nat) : List String :=
  ((st.branches.filter (fun b => b.target == c)).map (fun b => b.name)).insertionSort
    (fun a b => a ≤ b)

/-- Modelled from the spec: a commit is public when it is an ancestor of
the main branch, is not the current HEAD, and is not reachable from any
other branch; public commits are suppressed by default regardless of an
explicit unhide (section 4.4 rule 2). -/
def isPublicB (st : RepoState) (c : Nat) : Bool :=
  isMainAncB st c && !(c == st.head) && !otherBranchReach st c

/-- Modelled from the spec: the visibility verdict of the resolver
(section 4.4). -/
inductive Verdict
  | visible
  | hiddenManual
  | hiddenRewritten (successor : Nat)
  | hiddenUnreachable
deriving DecidableEq

/-- The resolved successor of an obsolete commit counts as visible when it
is not manually hidden and is reachable from HEAD or a branch. -/
def succVisibleB (st : RepoState) (s : Nat) : Bool :=
  !manuallyHidden st s && anyTipReach st s

/-- Modelled from the spec: the per-commit visibility verdict, evaluated in
rule order: manually hidden; superseded by a rewrite whose resolved
successor is visible; unreachable from every tip; otherwise visible
(section 4.4).  Public-ancestry suppression acts on seeding and elision in
the graph builder below, matching the committed smartlog tests, in which an
obsolete main-branch commit is rendered with its rewritten-as label. -/
def verdict (st : RepoState) (c : Nat) : Verdict :=
  if manuallyHidden st c then .hiddenManual
  else if isObsolete st c && succVisibleB st (resolveLatest st c).1 then
    .hiddenRewritten (resolveLatest st c).1
  else if !anyTipReach st c then .hiddenUnreachable
  else .visible

/-- The event log has a record naming the commit. -/
def recorded (st : RepoState) (c : Nat) : Bool :=
  st.events.any (fun e =>
    match e with
    | .CommitCreated x => x == c
    | .RewriteEvent old new => old == c || new == some c
    | .RefUpdateEvent _ _ _ => false
    | .HideEvent x => x == c
    | .UnhideEvent x => x == c)

/-- Modelled from the spec: the seed set of the commit graph builder: HEAD,
every branch tip, and every commit named by an event record that is either
visible and not public (default) or arbitrary (when showing hidden)
(section 4.5). -/
def isSeed (st : RepoState) (showHidden : Bool) (c : Nat) : Bool :=
  c == st.head || isBranchTip st c
    || (recorded st c
        && (showHidden || (decide (verdict st c = .visible) && !isPublicB st c)))

/-- The seed commits, in the canonical order of the commit universe. -/
def seeds (st : RepoState) (showHidden : Bool) : List Nat :=
  st.commits.filter (isSeed st showHidden)

/-- A commit belongs to the built graph when some seed reaches it. -/
def inGraphB (st : RepoState) (showHidden : Bool) (c : Nat) : Bool :=
  (seeds st showHidden).any (fun s => reachB st s c)

/-- Modelled from the spec: the bounded subgraph of relevant commits, the
commits reachable from the seed set (section 4.5). -/
def nodes (st : RepoState) (showHidden : Bool) : List Nat :=
  st.commits.filter (inGraphB st showHidden)

/-- Children of a commit inside the built graph, sorted by commit id so
that sibling ordering is deterministic. -/
def childrenIn (st : RepoState) (showHidden : Bool) (c : Nat) : List Nat :=
  (((nodes st showHidden).filter (fun d => (st.parents d).contains c))).insertionSort
    (fun a b => a ≤ b)

/-- Modelled from the spec: a graph commit is elided when it is a plain
public interior commit: an ancestor of the main branch, not HEAD, with no
branch pointing at it, visible (carrying no hidden/rewritten marker), not a
seed, with at most one child in the graph and at most one parent
(section 4.5). -/
def elidable (st : RepoState) (showHidden : Bool) (c : Nat) : Bool :=
  isMainAncB st c && !(c == st.head) && (branchNamesAt st c).isEmpty
    && decide (verdict st c = .visible) && !isSeed st showHidden c
    && decide ((childrenIn st showHidden c).length ≤ 1)
    && decide ((st.parents c).length ≤ 1)

/-- Modelled from the spec: the glyph of a rendered row: `@` for HEAD, `O`
and `o` for visible main/non-main commits, `X` and `x` for hidden
main/non-main commits (section 4.6 and the committed smartlog tests). -/
inductive Glyph
  | headGlyph
  | mainVisible
  | draftVisible
  | mainHidden
  | draftHidden
deriving DecidableEq

/-- Row-trailing label naming the suppression reason of a hidden commit. -/
inductive HiddenLabel
  | manualLabel
  | rewrittenLabel (successor : Nat)
  | unreachableLabel
deriving DecidableEq

/-- The suppression-reason label carried by a rendered row, when the
verdict is a hidden one. -/
def labelOf : Verdict → Option HiddenLabel
  | .visible => none
  | .hiddenManual => some .manualLabel
  | .hiddenRewritten s => some (.rewrittenLabel s)
  | .hiddenUnreachable => some .unreachableLabel

/-- Modelled from the spec: one rendered row: either an elision marker or a
commit row with its glyph, commit id, sorted branch names, and suppression
label (section 4.6). -/
inductive Row
  | elisionRow
  | commitRow (glyph : Glyph) (id : Nat) (names : List String)
      (label : Option HiddenLabel)
deriving DecidableEq

/-- The glyph assigned to a commit of the graph. -/
def glyphOf (st : RepoState) (c : Nat) : Glyph :=
  if c == st.head then .headGlyph
  else
    match verdict st c, isMainAncB st c with
    | .visible, true => .mainVisible
    | .visible, false => .draftVisible
    | _, true => .mainHidden
    | _, false => .draftHidden

/-- The commit row rendered for a graph commit. -/
def rowOf (st : RepoState) (c : Nat) : Row :=
  .commitRow (glyphOf st c) c (branchNamesAt st c) (labelOf (verdict st c))

/-- Modelled from the spec: depth-first emission of one lineage: emit the
row (or an elision marker) for the commit, then the subtree of each graph
child in commit-id order.  A commit with several parents in the graph is
emitted once per lineage, under each of its parents (section 4.5). -/
def emitTree (st : RepoState) (showHidden : Bool) : Nat → Nat → List Row
  | 0, _ => []
  | fuel + 1, c =>
    (if elidable st showHidden c then [Row.elisionRow] else [rowOf st c])
      ++ (childrenIn st showHidden c).flatMap (fun d => emitTree st showHidden fuel d)

/-- Roots of the built graph: graph commits none of whose parents belong to
the graph, in commit-id order. -/
def rootsOf (st : RepoState) (showHidden : Bool) : List Nat :=
  ((nodes st showHidden).filter
      (fun c => ((st.parents c).filter (fun p => (nodes st showHidden).contains p)).isEmpty)).insertionSort
    (fun a b => a ≤ b)

/-- Row is the elision marker. -/
def isElision : Row → Bool
  | .elisionRow => true
  | _ => false

/-- Merge runs of adjacent elision markers into a single marker row. -/
def collapseElisions : List Row → List Row
  | [] => []
  | r :: rest =>
    if isElision r
        && (match collapseElisions rest with | a :: _ => isElision a | [] => false) then
      collapseElisions rest
    else r :: collapseElisions rest

/-- Modelled from the spec: the rendered smartlog, as the deterministic
list of rows: the depth-first emission of every root lineage, with runs of
adjacent elision markers collapsed (sections 4.5 and 4.6). -/
def render (st : RepoState) (showHidden : Bool) : List Row :=
  collapseElisions
    ((rootsOf st showHidden).flatMap (fun r => emitTree st showHidden (st.commits.length + 1) r))

/-- The row is a commit row for the given commit id. -/
def isRowFor (c : Nat) : Row → Prop
  | .commitRow _ i _ _ => i = c
  | .elisionRow => False

instance (c : Nat) (r : Row) : Decidable (isRowFor c r) := by
  cases r <;> simp [isRowFor] <;> infer_instance

/-- A rank function witnessing acyclicity of the parent graph: parents have
strictly smaller rank, and commits of the universe have rank below the size
of the universe.  This packages the specification invariant that the graph
is acyclic and bounded (section 3). -/
structure WellFormed (st : RepoState) (rank : Nat → Nat) : Prop where
  parentsRank : ∀ c p, p ∈ st.parents c → rank p < rank c
  rankBound : ∀ c ∈ st.commits, rank c < st.commits.length

/-- Descent through the built graph: a path from a commit to a descendant,
following graph children. -/
inductive DPath (st : RepoState) (sh : Bool) : Nat → Nat → Prop
  | refl (c : Nat) : DPath st sh c c
  | step {r d c : Nat} : d ∈ childrenIn st sh r → DPath st sh d c → DPath st sh r c

/-- The row carries one of the hidden glyphs. -/
def rowGlyphHidden : Row → Bool
  | .commitRow g _ _ _ => g == .mainHidden || g == .draftHidden
  | .elisionRow => false

/-- Boolean test that a row is a commit row for the given commit id. -/
def rowForB (c : Nat) : Row → Bool
  | .commitRow _ i _ _ => i == c
  | .elisionRow => false

/-- Parent adjacency of a linear chain: commit `c + 1` has the single
parent `c`, commit 0 is a root. -/
def chainParents : Nat → List Nat :=
  fun c => if c = 0 then [] else [c - 1]

/-- A repository whose main branch is a linear chain of `n + 1` commits
with HEAD and the main branch at the tip: the configuration of the
committed test `test_sequential_master_commits`, generalized in the length
of the run of plain interior commits. -/
def linearState (n : Nat) : RepoState :=
  { commits := List.range (n + 1)
    parents := chainParents
    head := n
    branches := [⟨"master", n, false, true⟩]
    events := [] }

/-- A repository where commit `q + 2` is a merge commit terminating two
lineages: lineage one is the single commit 1 (branch `side`), lineage two
is the chain `2, …, q + 1`; both fork off the main root 0 and merge into
the commit `q + 2` at HEAD (branch `work`): the configuration of the
committed test `test_merge_commit`, generalized in the length of the
second lineage. -/
def mergeState (q : Nat) : RepoState :=
  { commits := List.range (q + 3)
    parents := fun c =>
      if c = 0 then []
      else if c = 1 then [0]
      else if c = q + 2 then [1, q + 1]
      else if c = 2 then [0]
      else [c - 1]
    head := q + 2
    branches := [⟨"master", 0, false, true⟩, ⟨"side", 1, false, false⟩,
      ⟨"work", q + 2, false, false⟩]
    events := [] }

/-- A repository with a manually hidden commit that is still a branch tip:
commit 1 is hidden but branch `feature` points at it, as in the committed
test `test_show_only_branches`. -/
def hiddenTipState : RepoState :=
  { commits := [0, 1]
    parents := chainParents
    head := 0
    branches := [⟨"master", 0, false, true⟩, ⟨"feature", 1, false, false⟩]
    events := [.HideEvent 1] }

/-- A repository with a hide record for a commit that no seed reaches. -/
def hiddenOrphanState : RepoState :=
  { commits := [0]
    parents := chainParents
    head := 0
    branches := [⟨"master", 0, false, true⟩]
    events := [.HideEvent 5] }

/-- A repository whose main-branch root 0 is a fork point: both the main
tip 1 and the detached HEAD 2 are children of 0, and 0 carries an explicit
unhide record. -/
def forkPointState : RepoState :=
  { commits := [0, 1, 2]
    parents := fun c => if c = 0 then [] else [0]
    head := 2
    branches := [⟨"master", 1, false, true⟩]
    events := [.UnhideEvent 0, .CommitCreated 2] }

/-- A linear main branch of three commits whose interior commit 1 carries
an explicit unhide record, as in the committed test
`test_active_non_head_main_branch_commit`. -/
def unhiddenChainState : RepoState :=
  { commits := [0, 1, 2]
    parents := chainParents
    head := 2
    branches := [⟨"master", 2, false, true⟩]
    events := [.UnhideEvent 1] }

/-- The amend scenario: commit 1 was amended into commit 2 (both children
of the main root 0), HEAD is at the replacement, as in the committed tests
`test_show_rewritten_commit_hash` and `test_show_hidden_commits`. -/
def amendState : RepoState :=
  { commits := [0, 1, 2]
    parents := fun c => if c = 0 then [] else [0]
    head := 2
    branches := [⟨"master", 0, false, true⟩]
    events := [.CommitCreated 1, .RewriteEvent 1 (some 2), .CommitCreated 2] }

/-! ### Concrete instances used by witnesses and counterexamples -/

/-- Hook file contents from the committed test `test_update_between_lines`
(src/init.rs lines 276-310). -/
def exampleHookFile : String :=
  "hello, world\n## START BRANCHLESS CONFIG\ncontents 1\n## END BRANCHLESS CONFIG\ngoodbye, world\n"

/-- Replacement text from the committed test `test_update_between_lines`. -/
def exampleReplacement : String := "contents 2\ncontents 3\n"

/-- A hook file consisting of a single START marker line, used to refute
unconditional idempotence of `update_between_lines`. -/
def markerOnlyFile : String := "## START BRANCHLESS CONFIG\n"

/-- A hook file with a START marker but no END marker, witnessing the
idempotence theorem on an unterminated marker block. -/
def unterminatedHookFile : String := "hello\n## START BRANCHLESS CONFIG\nold contents\n"

/-- A clean newline-terminated replacement text. -/
def freshReplacement : String := "new contents\n"

/-! ### Theorems -/

/-- Unfolding of `joinLines` on a cons cell. -/
theorem joinLines_cons (l : String) (ls : List String) :
    joinLines (l :: ls) = l ++ "\n" ++ joinLines ls := rfl

/-- `joinLines` distributes over list append. -/
theorem joinLines_append (a b : List String) :
    joinLines (a ++ b) = joinLines a ++ joinLines b := by
  induction a with
  | nil => simp [joinLines]
  | cons l ls ih =>
    simp only [List.cons_append, joinLines_cons, ih, String.append_assoc]

/-- Unfolding of the `update_between_lines` loop on the empty line list. -/
theorem ublGo_nil (u : String) (ign : Bool) : ublGo u [] ign = "" := rfl

/-- Lines containing neither marker are copied verbatim by the
`update_between_lines` loop while it is not ignoring. -/
theorem ublGo_keep (u : String) (rest : List String) :
    ∀ pre, UPDATE_MARKER_START ∉ pre → UPDATE_MARKER_END ∉ pre →
      ublGo u (pre ++ rest) false = joinLines pre ++ ublGo u rest false := by
  intro pre
  induction pre with
  | nil => intro _ _; simp [joinLines]
  | cons l ls ih =>
    intro hS hE
    simp only [List.mem_cons, not_or] at hS hE
    have h1 : ¬(l = UPDATE_MARKER_START) := fun h => hS.1 h.symm
    have h2 : ¬(l = UPDATE_MARKER_END) := fun h => hE.1 h.symm
    simp only [List.cons_append, ublGo, if_neg h1, if_neg h2, Bool.false_eq_true,
      if_false, List.append_eq, joinLines_cons]
    rw [ih hS.2 hE.2]
    simp only [String.append_assoc]

/-- Lines containing neither marker are dropped by the
`update_between_lines` loop while it is ignoring. -/
theorem ublGo_ignored (u : String) (rest : List String) :
    ∀ mid, UPDATE_MARKER_START ∉ mid → UPDATE_MARKER_END ∉ mid →
      ublGo u (mid ++ rest) true = ublGo u rest true := by
  intro mid
  induction mid with
  | nil => intro _ _; rfl
  | cons l ls ih =>
    intro hS hE
    simp only [List.mem_cons, not_or] at hS hE
    have h1 : ¬(l = UPDATE_MARKER_START) := fun h => hS.1 h.symm
    have h2 : ¬(l = UPDATE_MARKER_END) := fun h => hE.1 h.symm
    simp only [List.cons_append, ublGo, if_neg h1, if_neg h2, if_true, List.append_eq]
    exact ih hS.2 hE.2

/-- The START marker triggers the replacement block and starts ignoring. -/
theorem ublGo_start (u : String) (rest : List String) :
    ublGo u (UPDATE_MARKER_START :: rest) false =
      UPDATE_MARKER_START ++ "\n" ++ u ++ UPDATE_MARKER_END ++ "\n"
        ++ ublGo u rest true := by
  simp [ublGo]

/-- The END marker stops ignoring and is itself dropped. -/
theorem ublGo_end (u : String) (rest : List String) :
    ublGo u (UPDATE_MARKER_END :: rest) true = ublGo u rest false := by
  have hne : ¬(UPDATE_MARKER_END = UPDATE_MARKER_START) := by decide
  simp [ublGo, hne]

/-- Marker-free lines with nothing following are copied verbatim. -/
theorem ublGo_tail (u : String) (after : List String)
    (hS : UPDATE_MARKER_START ∉ after) (hE : UPDATE_MARKER_END ∉ after) :
    ublGo u after false = joinLines after := by
  have h := ublGo_keep u [] after hS hE
  simpa [String.append_empty, ublGo_nil] using h

/-- Elements of `stripTrailingCR l` are elements of `l`. -/
theorem stripTrailingCR_subset (l : List Char) :
    ∀ x ∈ stripTrailingCR l, x ∈ l := by
  intro x hx
  unfold stripTrailingCR at hx
  split at hx
  · exact List.mem_of_mem_dropLast hx
  · exact hx

/-- `stripTrailingCR` is the identity on carriage-return-free lists. -/
theorem stripTrailingCR_no_cr (l : List Char) (h : '\r' ∉ l) :
    stripTrailingCR l = l := by
  unfold stripTrailingCR
  rw [if_neg]
  intro hl
  exact h (List.mem_of_mem_getLast? hl)

/-- Splitting rebuilt output: a newline-free piece followed by a newline
splits off as one line. -/
theorem linesAux_append_newline :
    ∀ (l acc cs : List Char), '\n' ∉ l →
      linesAux acc (l ++ '\n' :: cs) = stripTrailingCR (acc ++ l) :: linesAux [] cs := by
  intro l
  induction l with
  | nil => intro acc cs _; simp [linesAux]
  | cons c cl ih =>
    intro acc cs h
    simp only [List.mem_cons, not_or] at h
    have hc : ¬(c = '\n') := fun hh => h.1 hh.symm
    simp only [List.cons_append, linesAux, if_neg hc, List.append_eq]
    rw [ih (acc ++ [c]) cs h.2, List.append_assoc]
    rfl

/-- Splitting a joined list of clean lines recovers the lines. -/
theorem rustLines_joinLines (L : List String)
    (h : ∀ l ∈ L, '\n' ∉ l.data ∧ '\r' ∉ l.data) :
    rustLines (joinLines L) = L := by
  induction L with
  | nil => rfl
  | cons l ls ih =>
    have hl := h l (List.mem_cons_self _ _)
    have hdata : (joinLines (l :: ls)).data = l.data ++ '\n' :: (joinLines ls).data := by
      rw [joinLines_cons,
        show (l ++ "\n" ++ joinLines ls).data
          = (l.data ++ ['\n']) ++ (joinLines ls).data from rfl,
        List.append_assoc]
      rfl
    unfold rustLines
    rw [hdata, linesAux_append_newline l.data [] (joinLines ls).data hl.1]
    simp only [List.nil_append, List.map_cons]
    rw [stripTrailingCR_no_cr l.data hl.2]
    have hmk : String.mk l.data = l := rfl
    rw [hmk]
    congr 1
    have := ih (fun x hx => h x (List.mem_cons_of_mem _ hx))
    unfold rustLines at this
    exact this

/-- Every character of a line produced by `linesAux` comes from the
accumulator or the remaining input. -/
theorem linesAux_mem_subset :
    ∀ (cs acc l : List Char), l ∈ linesAux acc cs →
      ∀ ch ∈ l, ch ∈ acc ∨ ch ∈ cs := by
  intro cs
  induction cs with
  | nil =>
    intro acc l hl ch hch
    by_cases h : acc.isEmpty
    · simp [linesAux, h] at hl
    · simp only [linesAux, h, Bool.false_eq_true, if_false, List.mem_singleton] at hl
      subst hl
      exact Or.inl hch
  | cons c cs ih =>
    intro acc l hl ch hch
    by_cases hc : c = '\n'
    · subst hc
      simp only [linesAux, if_pos rfl] at hl
      rcases List.mem_cons.1 hl with h | h
      · subst h
        exact Or.inl (stripTrailingCR_subset acc ch hch)
      · rcases ih [] l h ch hch with h2 | h2
        · simp at h2
        · exact Or.inr (List.mem_cons_of_mem _ h2)
    · simp only [linesAux, if_neg hc] at hl
      rcases ih (acc ++ [c]) l hl ch hch with h2 | h2
      · rcases List.mem_append.1 h2 with h3 | h3
        · exact Or.inl h3
        · simp only [List.mem_singleton] at h3
          subst h3
          exact Or.inr (List.mem_cons_self _ _)
      · exact Or.inr (List.mem_cons_of_mem _ h2)

/-- Lines produced by `linesAux` contain no newline when the accumulator
contains none. -/
theorem linesAux_no_newline :
    ∀ (cs acc : List Char), '\n' ∉ acc → ∀ l ∈ linesAux acc cs, '\n' ∉ l := by
  intro cs
  induction cs with
  | nil =>
    intro acc hacc l hl
    by_cases h : acc.isEmpty
    · simp [linesAux, h] at hl
    · simp only [linesAux, h, Bool.false_eq_true, if_false, List.mem_singleton] at hl
      subst hl
      exact hacc
  | cons c cs ih =>
    intro acc hacc l hl
    by_cases hc : c = '\n'
    · subst hc
      simp only [linesAux, if_pos rfl] at hl
      rcases List.mem_cons.1 hl with h | h
      · subst h
        intro hn
        exact hacc (stripTrailingCR_subset acc _ hn)
      · exact ih [] (by simp) l h
    · simp only [linesAux, if_neg hc] at hl
      refine ih (acc ++ [c]) ?_ l hl
      intro hn
      rcases List.mem_append.1 hn with h | h
      · exact hacc h
      · simp only [List.mem_singleton] at h
        exact hc h.symm

/-- Lines of a carriage-return-free string are clean: they contain neither
newline nor carriage return. -/
theorem rustLines_clean (s : String) (hr : '\r' ∉ s.data) :
    ∀ l ∈ rustLines s, '\n' ∉ l.data ∧ '\r' ∉ l.data := by
  intro l hl
  unfold rustLines at hl
  rcases List.mem_map.1 hl with ⟨cl, hcl, rfl⟩
  refine ⟨?_, ?_⟩
  · exact linesAux_no_newline s.data [] (by simp) cl hcl
  · intro hcr
    rcases linesAux_mem_subset s.data [] cl hcl '\r' hcr with h | h
    · simp at h
    · exact hr h

/-- `ublGo` agrees with the line-level loop `processedLines` when the
replacement text round-trips through its lines. -/
theorem ublGo_eq_joinLines_processed (u : String)
    (hu : joinLines (rustLines u) = u) :
    ∀ ls ign, ublGo u ls ign = joinLines (processedLines (rustLines u) ls ign) := by
  intro ls
  induction ls with
  | nil => intro ign; rfl
  | cons l rest ih =>
    intro ign
    by_cases h1 : l = UPDATE_MARKER_START
    · simp only [ublGo, processedLines, if_pos h1, joinLines_cons, joinLines_append,
        hu, ih true, String.append_assoc]
    · by_cases h2 : l = UPDATE_MARKER_END
      · simp only [ublGo, processedLines, if_neg h1, if_pos h2]
        exact ih false
      · cases ign
        · simp only [ublGo, processedLines, if_neg h1, if_neg h2, Bool.false_eq_true,
            if_false, joinLines_cons, ih false, String.append_assoc]
        · simp only [ublGo, processedLines, if_neg h1, if_neg h2, if_true]
          exact ih true

/-- Unfolding of the line-level loop at a START marker. -/
theorem processedLines_start (uls rest : List String) (ign : Bool) :
    processedLines uls (UPDATE_MARKER_START :: rest) ign =
      UPDATE_MARKER_START :: (uls ++ UPDATE_MARKER_END :: processedLines uls rest true) := by
  simp [processedLines]

/-- Unfolding of the line-level loop at an END marker. -/
theorem processedLines_end (uls rest : List String) (ign : Bool) :
    processedLines uls (UPDATE_MARKER_END :: rest) ign =
      processedLines uls rest false := by
  have hne : ¬(UPDATE_MARKER_END = UPDATE_MARKER_START) := by decide
  simp [processedLines, hne]

/-- Unfolding of the line-level loop at a marker-free line. -/
theorem processedLines_other (uls : List String) (x : String) (rest : List String)
    (h1 : ¬(x = UPDATE_MARKER_START)) (h2 : ¬(x = UPDATE_MARKER_END)) :
    processedLines uls (x :: rest) true = processedLines uls rest true ∧
    processedLines uls (x :: rest) false = x :: processedLines uls rest false := by
  constructor <;> simp [processedLines, h1, h2]

/-- Every line of the processed output is a marker, a replacement line, or
an input line. -/
theorem processedLines_mem (uls : List String) :
    ∀ (ls : List String) (ign : Bool) (l : String), l ∈ processedLines uls ls ign →
      l = UPDATE_MARKER_START ∨ l = UPDATE_MARKER_END ∨ l ∈ uls ∨ l ∈ ls := by
  intro ls
  induction ls with
  | nil => intro ign l hl; simp [processedLines] at hl
  | cons x rest ih =>
    intro ign l hl
    by_cases h1 : x = UPDATE_MARKER_START
    · simp only [processedLines, if_pos h1] at hl
      rcases List.mem_cons.1 hl with h | h
      · exact Or.inl h
      · rcases List.mem_append.1 h with h | h
        · exact Or.inr (Or.inr (Or.inl h))
        · rcases List.mem_cons.1 h with h | h
          · exact Or.inr (Or.inl h)
          · rcases ih true l h with h | h | h | h
            · exact Or.inl h
            · exact Or.inr (Or.inl h)
            · exact Or.inr (Or.inr (Or.inl h))
            · exact Or.inr (Or.inr (Or.inr (List.mem_cons_of_mem _ h)))
    · by_cases h2 : x = UPDATE_MARKER_END
      · simp only [processedLines, if_neg h1, if_pos h2] at hl
        rcases ih false l hl with h | h | h | h
        · exact Or.inl h
        · exact Or.inr (Or.inl h)
        · exact Or.inr (Or.inr (Or.inl h))
        · exact Or.inr (Or.inr (Or.inr (List.mem_cons_of_mem _ h)))
      · cases ign
        · simp only [processedLines, if_neg h1, if_neg h2, Bool.false_eq_true,
            if_false] at hl
          rcases List.mem_cons.1 hl with h | h
          · subst h
            exact Or.inr (Or.inr (Or.inr (List.mem_cons_self _ _)))
          · rcases ih false l h with h | h | h | h
            · exact Or.inl h
            · exact Or.inr (Or.inl h)
            · exact Or.inr (Or.inr (Or.inl h))
            · exact Or.inr (Or.inr (Or.inr (List.mem_cons_of_mem _ h)))
        · simp only [processedLines, if_neg h1, if_neg h2, if_true] at hl
          rcases ih true l hl with h | h | h | h
          · exact Or.inl h
          · exact Or.inr (Or.inl h)
          · exact Or.inr (Or.inr (Or.inl h))
          · exact Or.inr (Or.inr (Or.inr (List.mem_cons_of_mem _ h)))

/-- While ignoring, the line-level loop drops marker-free lines and stops
at the END marker. -/
theorem processedLines_ignored (uls : List String) :
    ∀ mid, UPDATE_MARKER_START ∉ mid → UPDATE_MARKER_END ∉ mid →
      ∀ rest, processedLines uls (mid ++ UPDATE_MARKER_END :: rest) true =
        processedLines uls rest false := by
  intro mid
  induction mid with
  | nil =>
    intro _ _ rest
    rw [List.nil_append, processedLines_end]
  | cons x xs ih =>
    intro hS hE rest
    simp only [List.mem_cons, not_or] at hS hE
    have h1 : ¬(x = UPDATE_MARKER_START) := fun h => hS.1 h.symm
    have h2 : ¬(x = UPDATE_MARKER_END) := fun h => hE.1 h.symm
    rw [List.cons_append,
      (processedLines_other uls x (xs ++ UPDATE_MARKER_END :: rest) h1 h2).1]
    exact ih hS.2 hE.2 rest

/-- The line-level loop is idempotent when the replacement lines contain
neither marker. -/
theorem processedLines_idem (uls : List String)
    (hS : UPDATE_MARKER_START ∉ uls) (hE : UPDATE_MARKER_END ∉ uls) :
    ∀ ls ign, processedLines uls (processedLines uls ls ign) false =
      processedLines uls ls ign := by
  intro ls
  induction ls with
  | nil => intro ign; rfl
  | cons x rest ih =>
    intro ign
    by_cases h1 : x = UPDATE_MARKER_START
    · subst h1
      rw [processedLines_start, processedLines_start,
        processedLines_ignored uls uls hS hE (processedLines uls rest true), ih true]
    · by_cases h2 : x = UPDATE_MARKER_END
      · subst h2
        rw [processedLines_end]
        exact ih false
      · cases ign
        · rw [(processedLines_other uls x rest h1 h2).2,
            (processedLines_other uls x (processedLines uls rest false) h1 h2).2,
            ih false]
        · rw [(processedLines_other uls x rest h1 h2).1]
          exact ih true

/-- C9, amended: `update_between_lines` is idempotent for every
carriage-return-free input provided the replacement text is a clean
newline-terminated block whose lines include neither marker; in particular
an input with a START marker but no END marker is normalized to a
well-formed marker block by the first application. -/
theorem C9_amended_update_between_lines_idempotent
    (s u : String)
    (hu : joinLines (rustLines u) = u)
    (hS : UPDATE_MARKER_START ∉ rustLines u)
    (hE : UPDATE_MARKER_END ∉ rustLines u)
    (hscr : '\r' ∉ s.data) (hucr : '\r' ∉ u.data) :
    update_between_lines (update_between_lines s u) u = update_between_lines s u := by
  unfold update_between_lines
  have hA := ublGo_eq_joinLines_processed u hu
  rw [hA (rustLines s) false]
  have hclean : ∀ l ∈ processedLines (rustLines u) (rustLines s) false,
      '\n' ∉ l.data ∧ '\r' ∉ l.data := by
    intro l hl
    rcases processedLines_mem (rustLines u) (rustLines s) false l hl with h | h | h | h
    · subst h; exact ⟨by decide, by decide⟩
    · subst h; exact ⟨by decide, by decide⟩
    · exact rustLines_clean u hucr l h
    · exact rustLines_clean s hscr l h
  rw [rustLines_joinLines _ hclean, hA _ false,
    processedLines_idem (rustLines u) hS hE (rustLines s) false]

/-- Witness for the amended C9 at a concrete unterminated hook file. -/
theorem C9_amended_witness :
    joinLines (rustLines freshReplacement) = freshReplacement ∧
    UPDATE_MARKER_START ∉ rustLines freshReplacement ∧
    UPDATE_MARKER_END ∉ rustLines freshReplacement ∧
    '\r' ∉ unterminatedHookFile.data ∧ '\r' ∉ freshReplacement.data ∧
    update_between_lines
        (update_between_lines unterminatedHookFile freshReplacement)
        freshReplacement
      = update_between_lines unterminatedHookFile freshReplacement :=
  ⟨by decide, by decide, by decide, by decide, by decide,
    C9_amended_update_between_lines_idempotent unterminatedHookFile freshReplacement
      (by decide) (by decide) (by decide) (by decide) (by decide)⟩

/-- C8: on an input with exactly one START marker line followed later by
exactly one END marker line, `update_between_lines` replaces the lines
strictly between the markers with the replacement text and leaves every
line before the START marker and after the END marker unchanged, the
markers themselves preserved. -/
theorem C8_update_between_lines_frame
    (s u : String) (before mid after : List String)
    (hs : rustLines s = before ++ UPDATE_MARKER_START :: (mid ++ UPDATE_MARKER_END :: after))
    (hbS : UPDATE_MARKER_START ∉ before) (hbE : UPDATE_MARKER_END ∉ before)
    (hmS : UPDATE_MARKER_START ∉ mid) (hmE : UPDATE_MARKER_END ∉ mid)
    (haS : UPDATE_MARKER_START ∉ after) (haE : UPDATE_MARKER_END ∉ after) :
    update_between_lines s u =
      joinLines before
        ++ (UPDATE_MARKER_START ++ "\n" ++ u ++ UPDATE_MARKER_END ++ "\n")
        ++ joinLines after := by
  unfold update_between_lines
  rw [hs, ublGo_keep u _ before hbS hbE, ublGo_start,
    ublGo_ignored u _ mid hmS hmE, ublGo_end, ublGo_tail u after haS haE]
  simp [String.append_assoc]

/-- Witness for C8 at the concrete input of the committed test
`test_update_between_lines`. -/
theorem C8_update_between_lines_frame_witness :
    rustLines exampleHookFile =
      ["hello, world"] ++ UPDATE_MARKER_START :: (["contents 1"]
        ++ UPDATE_MARKER_END :: ["goodbye, world"]) ∧
    update_between_lines exampleHookFile exampleReplacement =
      joinLines ["hello, world"]
        ++ (UPDATE_MARKER_START ++ "\n" ++ exampleReplacement
          ++ UPDATE_MARKER_END ++ "\n")
        ++ joinLines ["goodbye, world"] :=
  ⟨by decide,
    C8_update_between_lines_frame exampleHookFile exampleReplacement
      ["hello, world"] ["contents 1"] ["goodbye, world"] (by decide) (by decide)
      (by decide) (by decide) (by decide) (by decide) (by decide)⟩

/-- C9, counterexample: `update_between_lines` is not idempotent for every
newline-terminated replacement text: when the replacement text itself
contains the START marker as a line, a second application expands the
replacement block again. -/
theorem C9_counterexample_not_idempotent :
    update_between_lines (update_between_lines markerOnlyFile markerOnlyFile)
        markerOnlyFile
      ≠ update_between_lines markerOnlyFile markerOnlyFile := by
  decide

/-- C10: `update_hook_contents` on a RegularHook whose file read fails with
NotFound writes a file consisting of exactly the shebang line, the START
marker, the hook contents and the END marker, newline-separated; any other
read error is propagated and no file is written. -/
theorem C10_update_hook_contents_fresh_and_error
    (path hook_contents msg : String) :
    update_hook_contents (.RegularHook path) hook_contents .notFound =
      .ok (path, SHEBANG ++ "\n" ++ UPDATE_MARKER_START ++ "\n"
        ++ hook_contents ++ "\n" ++ UPDATE_MARKER_END ++ "\n") ∧
    update_hook_contents (.RegularHook path) hook_contents (.otherError msg) =
      .error msg :=
  ⟨rfl, rfl⟩

/-- C6: whatever the exit status of the hook-triggered ingestion command,
the installed reference-transaction hook script itself succeeds, so the
repository operation that fired the hook is never blocked; on ingestion
failure the script only prints its three warning lines. -/
theorem C6_reference_transaction_hook_never_blocks
    (branchlessExit : String → Bool) :
    (runShell branchlessExit reference_transaction_hook_script).1 = true ∧
    (runShell branchlessExit reference_transaction_hook_script).2 =
      (if branchlessExit "hook-reference-transaction" then ([] : List String)
       else
        ["branchless: Failed to process reference transaction!",
         "branchless: Some events (e.g. branch updates) may have been lost.",
         "branchless: This is a bug. Please report it."]) := by
  cases h : branchlessExit "hook-reference-transaction" <;>
    simp [runShell, reference_transaction_hook_script, h]

/-- Boolean any is pointwise extensional. -/
theorem any_ext {α : Type} (l : List α) (p q : α → Bool) (h : ∀ x, p x = q x) :
    l.any p = l.any q := by
  induction l with
  | nil => rfl
  | cons x xs ih => simp [List.any_cons, h x, ih]

/-- A false any gives a false predicate at every member. -/
theorem any_false_mem {α : Type} (l : List α) (p : α → Bool) (h : l.any p = false)
    (a : α) (ha : a ∈ l) : p a = false := by
  by_contra hc
  rw [Bool.not_eq_false] at hc
  have ht : l.any p = true := List.any_eq_true.2 ⟨a, ha, hc⟩
  rw [h] at ht
  exact Bool.false_ne_true ht

/-- Boolean any is invariant under permutation of the list. -/
theorem any_perm {α : Type} {l1 l2 : List α} (h : l1.Perm l2) (p : α → Bool) :
    l1.any p = l2.any p := by
  induction h with
  | nil => rfl
  | cons x _ ih => simp [List.any_cons, ih]
  | swap x y l => cases hx : p x <;> cases hy : p y <;> simp [List.any_cons, hx, hy]
  | trans _ _ ih1 ih2 => exact ih1.trans ih2

/-- A fuel-bounded positive ancestry answer is a real ancestry chain. -/
theorem reachFuel_sound (st : RepoState) :
    ∀ (f : Nat) (s c : Nat), reachFuel st f s c = true → Reaches st s c := by
  intro f
  induction f with
  | zero =>
    intro s c h
    rw [reachFuel, decide_eq_true_eq] at h
    subst h
    exact .refl s
  | succ f ih =>
    intro s c h
    rw [reachFuel, Bool.or_eq_true, decide_eq_true_eq] at h
    rcases h with h | h
    · subst h; exact .refl s
    · rcases List.any_eq_true.1 h with ⟨p, hp, hr⟩
      exact .step hp (ih p c hr)

/-- An ancestry chain is found once the fuel exceeds the rank of the
start, for any rank under which parents strictly descend. -/
theorem reachFuel_complete (st : RepoState) (rank : Nat → Nat)
    (hr : ∀ c p, p ∈ st.parents c → rank p < rank c) :
    ∀ {s c : Nat}, Reaches st s c → ∀ f, rank s < f → reachFuel st f s c = true := by
  intro s c h
  induction h with
  | refl c0 =>
    intro f hf
    cases f with
    | zero => omega
    | succ f => simp [reachFuel]
  | step hp _ ih =>
    intro f hf
    cases f with
    | zero => omega
    | succ f =>
      rw [reachFuel, Bool.or_eq_true]
      refine Or.inr (List.any_eq_true.2 ⟨_, hp, ih f ?_⟩)
      have := hr _ _ hp
      omega

/-- Ancestry chains compose. -/
theorem Reaches_trans (st : RepoState) {a b c : Nat}
    (h1 : Reaches st a b) (h2 : Reaches st b c) : Reaches st a c := by
  induction h1 with
  | refl => exact h2
  | step hp _ ih => exact .step hp (ih h2)

/-- Membership in the graph children of a commit. -/
theorem mem_childrenIn (st : RepoState) (sh : Bool) (c ch : Nat) :
    ch ∈ childrenIn st sh c ↔ ch ∈ nodes st sh ∧ c ∈ st.parents ch := by
  unfold childrenIn
  rw [List.mem_insertionSort, List.mem_filter, List.elem_iff]

/-- Membership in the graph roots. -/
theorem mem_rootsOf (st : RepoState) (sh : Bool) (c : Nat) :
    c ∈ rootsOf st sh ↔ c ∈ nodes st sh ∧
      (st.parents c).filter (fun p => (nodes st sh).contains p) = [] := by
  unfold rootsOf
  rw [List.mem_insertionSort, List.mem_filter]
  simp [List.isEmpty_iff]

/-- Commit rows survive the elision collapse. -/
theorem collapseElisions_mem (r : Row) (hr : isElision r = false) :
    ∀ l, r ∈ l → r ∈ collapseElisions l := by
  intro l
  induction l with
  | nil => intro h; exact absurd h (List.not_mem_nil r)
  | cons x xs ih =>
    intro h
    simp only [collapseElisions]
    split
    · rename_i hcond
      rcases List.mem_cons.1 h with h1 | h1
      · subst h1
        rw [hr] at hcond
        simp at hcond
      · exact ih h1
    · rcases List.mem_cons.1 h with h1 | h1
      · subst h1; exact List.mem_cons_self _ _
      · exact List.mem_cons_of_mem _ (ih h1)

/-- Rows of the collapsed output come from the uncollapsed output. -/
theorem collapseElisions_sub (r : Row) :
    ∀ l, r ∈ collapseElisions l → r ∈ l := by
  intro l
  induction l with
  | nil => intro h; simp [collapseElisions] at h
  | cons x xs ih =>
    intro h
    simp only [collapseElisions] at h
    split at h
    · exact List.mem_cons_of_mem _ (ih h)
    · rcases List.mem_cons.1 h with h1 | h1
      · subst h1; exact List.mem_cons_self _ _
      · exact List.mem_cons_of_mem _ (ih h1)

/-- The elision collapse preserves counts of non-elision rows. -/
theorem collapseElisions_countP (p : Row → Bool) (hp : p Row.elisionRow = false) :
    ∀ l, (collapseElisions l).countP p = l.countP p := by
  intro l
  induction l with
  | nil => rfl
  | cons x xs ih =>
    simp only [collapseElisions]
    split
    · rename_i hcond
      have hx : isElision x = true := by
        by_contra hxc
        rw [Bool.not_eq_true] at hxc
        rw [hxc] at hcond
        simp at hcond
      have hx2 : x = Row.elisionRow := by
        cases x
        · rfl
        · simp [isElision] at hx
      subst hx2
      rw [ih, List.countP_cons, hp]
      simp
    · rw [List.countP_cons, List.countP_cons, ih]

/-- Every row emitted below a graph commit is an elision marker or the row
of a non-elided graph commit. -/
theorem emitTree_sound (st : RepoState) (sh : Bool) :
    ∀ (f : Nat) (d : Nat), d ∈ nodes st sh →
      ∀ r ∈ emitTree st sh f d,
        r = Row.elisionRow ∨
          ∃ x, x ∈ nodes st sh ∧ elidable st sh x = false ∧ r = rowOf st x := by
  intro f
  induction f with
  | zero => intro d _ r hr; simp [emitTree] at hr
  | succ f ih =>
    intro d hd r hr
    rw [emitTree, List.mem_append] at hr
    rcases hr with hr | hr
    · split at hr
      · rw [List.mem_singleton] at hr
        exact Or.inl hr
      · rename_i hel
        rw [List.mem_singleton] at hr
        exact Or.inr ⟨d, hd, by simpa using hel, hr⟩
    · rcases List.mem_flatMap.1 hr with ⟨ch, hch, hin⟩
      exact ih ch ((mem_childrenIn st sh d ch).1 hch).1 r hin

/-- Every row of the rendered smartlog is an elision marker or the row of a
non-elided graph commit. -/
theorem render_sound (st : RepoState) (sh : Bool) :
    ∀ r ∈ render st sh,
      r = Row.elisionRow ∨
        ∃ x, x ∈ nodes st sh ∧ elidable st sh x = false ∧ r = rowOf st x := by
  intro r hr
  unfold render at hr
  rcases List.mem_flatMap.1 (collapseElisions_sub r _ hr) with ⟨rt, hrt, hin⟩
  exact emitTree_sound st sh _ rt ((mem_rootsOf st sh rt).1 hrt).1 r hin

/-- Appending a step at the bottom of a graph descent. -/
theorem DPath_snoc (st : RepoState) (sh : Bool) {r p c : Nat}
    (h : DPath st sh r p) (hc : c ∈ childrenIn st sh p) : DPath st sh r c := by
  induction h with
  | refl => exact .step hc (.refl c)
  | step h1 _ ih => exact .step h1 (ih hc)

/-- Rank is monotone along a graph descent. -/
theorem DPath_rank_le (st : RepoState) (sh : Bool) (rank : Nat → Nat)
    (hr : ∀ c p, p ∈ st.parents c → rank p < rank c) :
    ∀ {r c : Nat}, DPath st sh r c → rank r ≤ rank c := by
  intro r c h
  induction h with
  | refl => exact le_refl _
  | step h1 _ ih =>
    have := hr _ _ ((mem_childrenIn st sh _ _).1 h1).2
    omega

/-- Every graph commit is the endpoint of a descent from some graph root. -/
theorem exists_root_dpath (st : RepoState) (sh : Bool) (rank : Nat → Nat)
    (hwf : WellFormed st rank) :
    ∀ c ∈ nodes st sh, ∃ r ∈ rootsOf st sh, DPath st sh r c := by
  have key : ∀ n c, rank c = n → c ∈ nodes st sh →
      ∃ r ∈ rootsOf st sh, DPath st sh r c := by
    intro n
    induction n using Nat.strong_induction_on with
    | _ n ih =>
      intro c hrank hc
      by_cases hroot : (st.parents c).filter (fun p => (nodes st sh).contains p) = []
      · exact ⟨c, (mem_rootsOf st sh c).2 ⟨hc, hroot⟩, .refl c⟩
      · have hex : ∃ p, p ∈ st.parents c ∧ p ∈ nodes st sh := by
          rcases List.exists_mem_of_ne_nil _ hroot with ⟨p, hp⟩
          have := List.mem_filter.1 hp
          exact ⟨p, this.1, List.elem_iff.1 this.2⟩
        rcases hex with ⟨p, hp1, hp2⟩
        have hlt : rank p < n := hrank ▸ hwf.parentsRank c p hp1
        rcases ih (rank p) hlt p rfl hp2 with ⟨r, hr1, hr2⟩
        exact ⟨r, hr1, DPath_snoc st sh hr2 ((mem_childrenIn st sh p c).2 ⟨hc, hp1⟩)⟩
  intro c hc
  exact key (rank c) c rfl hc

/-- The row of a non-elided endpoint of a graph descent is emitted, given
enough fuel. -/
theorem emitTree_complete (st : RepoState) (sh : Bool) (rank : Nat → Nat)
    (hr : ∀ c p, p ∈ st.parents c → rank p < rank c) :
    ∀ {r c : Nat}, DPath st sh r c → elidable st sh c = false →
      ∀ f, rank c < f + rank r → rowOf st c ∈ emitTree st sh f r := by
  intro r c h hel
  induction h with
  | refl c0 =>
    intro f hf
    cases f with
    | zero => omega
    | succ f =>
      rw [emitTree, List.mem_append]
      left
      simp [hel]
  | step h1 h2 ih =>
    intro f hf
    have hrd := hr _ _ ((mem_childrenIn st sh _ _).1 h1).2
    cases f with
    | zero =>
      have := DPath_rank_le st sh rank hr h2
      omega
    | succ f =>
      rw [emitTree, List.mem_append]
      right
      exact List.mem_flatMap.2 ⟨_, h1, ih hel f (by omega)⟩

/-- The row of every non-elided graph commit appears in the rendered
smartlog. -/
theorem render_complete (st : RepoState) (sh : Bool) (rank : Nat → Nat)
    (hwf : WellFormed st rank) {c : Nat} (hc : c ∈ nodes st sh)
    (hel : elidable st sh c = false) :
    rowOf st c ∈ render st sh := by
  rcases exists_root_dpath st sh rank hwf c hc with ⟨r, hr1, hr2⟩
  unfold render
  apply collapseElisions_mem (rowOf st c) rfl
  refine List.mem_flatMap.2 ⟨r, hr1, ?_⟩
  apply emitTree_complete st sh rank hwf.parentsRank hr2 hel
  have h1 := hwf.rankBound c (List.mem_filter.1 hc).1
  omega

/-- A main-branch ancestor is reachable from some tip. -/
theorem anyTipReach_of_mainAnc (st : RepoState) (c : Nat)
    (h : isMainAncB st c = true) : anyTipReach st c = true := by
  unfold isMainAncB at h
  rcases List.any_eq_true.1 h with ⟨b, hb, hbp⟩
  rw [Bool.and_eq_true] at hbp
  unfold anyTipReach
  rw [Bool.or_eq_true]
  exact Or.inr (List.any_eq_true.2 ⟨b, hb, hbp.2⟩)

/-- A commit with no branch names is not a branch tip. -/
theorem isBranchTip_eq_false_of_names_nil (st : RepoState) (c : Nat)
    (h : branchNamesAt st c = []) : isBranchTip st c = false := by
  unfold branchNamesAt at h
  have hperm := List.perm_insertionSort (fun a b : String => a ≤ b)
    ((st.branches.filter (fun b => b.target == c)).map (fun b => b.name))
  rw [h] at hperm
  have hmap := List.Perm.eq_nil hperm.symm
  have hfil : st.branches.filter (fun b => b.target == c) = [] :=
    List.map_eq_nil_iff.1 hmap
  unfold isBranchTip
  by_contra hbt
  rw [Bool.not_eq_false] at hbt
  rcases List.any_eq_true.1 hbt with ⟨b, hb, htg⟩
  have hmem : b ∈ st.branches.filter (fun b => b.target == c) :=
    List.mem_filter.2 ⟨hb, htg⟩
  rw [hfil] at hmem
  exact absurd hmem (List.not_mem_nil b)

/-- The verdict of an unhidden, non-obsolete, reachable commit is
visible. -/
theorem verdict_visible_of (st : RepoState) (c : Nat)
    (hman : manuallyHidden st c = false) (hobs : isObsolete st c = false)
    (hreach : anyTipReach st c = true) : verdict st c = .visible := by
  unfold verdict
  rw [hman, hobs, hreach]
  simp

/-- Publicness of a main ancestor that is neither HEAD nor reachable from
another branch. -/
theorem isPublicB_true_of (st : RepoState) (c : Nat)
    (hmain : isMainAncB st c = true) (hh : c ≠ st.head)
    (hot : otherBranchReach st c = false) : isPublicB st c = true := by
  unfold isPublicB
  rw [hmain, hot]
  simp [hh]

/-- A public non-tip commit is not a default seed. -/
theorem isSeed_false_of (st : RepoState) (c : Nat) (hh : c ≠ st.head)
    (hbt : isBranchTip st c = false) (hpub : isPublicB st c = true) :
    isSeed st false c = false := by
  unfold isSeed
  rw [hbt, hpub]
  simp [hh]

/-- Sufficient conditions for a commit of the graph to be elided. -/
theorem elidable_true_of (st : RepoState) (sh : Bool) (c : Nat)
    (hmain : isMainAncB st c = true) (hh : c ≠ st.head)
    (hnames : branchNamesAt st c = []) (hv : verdict st c = .visible)
    (hseed : isSeed st sh c = false) (hch : (childrenIn st sh c).length ≤ 1)
    (hpar : (st.parents c).length ≤ 1) : elidable st sh c = true := by
  unfold elidable
  rw [hmain, hnames, hv, hseed]
  simp [hh, hch, hpar]

/-- A seed commit is never elided. -/
theorem elidable_false_of_seed (st : RepoState) (sh : Bool) (c : Nat)
    (hs : isSeed st sh c = true) : elidable st sh c = false := by
  unfold elidable
  rw [hs]
  simp

/-- Replaying events that never touch the visibility record of a commit
leaves the record unchanged. -/
theorem foldl_visStep_const (c : Nat) :
    ∀ (evs : List Event) (acc : Option Bool),
      (∀ x, Event.HideEvent x ∈ evs → x ≠ c) →
      (∀ x, Event.UnhideEvent x ∈ evs → x ≠ c) →
      evs.foldl (visStep c) acc = acc := by
  intro evs
  induction evs with
  | nil => intro acc _ _; rfl
  | cons e es ih =>
    intro acc h1 h2
    rw [List.foldl_cons]
    have hstep : visStep c acc e = acc := by
      cases e with
      | HideEvent x =>
        have := h1 x (List.mem_cons_self _ _)
        simp [visStep, this]
      | UnhideEvent x =>
        have := h2 x (List.mem_cons_self _ _)
        simp [visStep, this]
      | CommitCreated x => rfl
      | RewriteEvent a b => rfl
      | RefUpdateEvent a b d => rfl
    rw [hstep]
    exact ih acc (fun x hx => h1 x (List.mem_cons_of_mem _ hx))
      (fun x hx => h2 x (List.mem_cons_of_mem _ hx))

/-- A commit with a Hide/Unhide record is named by some event record. -/
theorem recorded_of_latestVis (st : RepoState) (c : Nat)
    (h : latestVis st c ≠ none) : recorded st c = true := by
  by_contra hrec
  rw [Bool.not_eq_true] at hrec
  unfold recorded at hrec
  apply h
  unfold latestVis
  apply foldl_visStep_const
  · intro x hx
    have h2 := any_false_mem _ _ hrec _ hx
    simp only [beq_eq_false_iff_ne, ne_eq] at h2
    exact h2
  · intro x hx
    have h2 := any_false_mem _ _ hrec _ hx
    simp only [beq_eq_false_iff_ne, ne_eq] at h2
    exact h2

/-- Recorded commits are seeds of the include-hidden graph. -/
theorem isSeed_true_of_recorded (st : RepoState) (c : Nat)
    (hr : recorded st c = true) : isSeed st true c = true := by
  unfold isSeed
  rw [hr]
  simp

/-- A seed of the commit universe belongs to the graph. -/
theorem mem_nodes_self_of_seed (st : RepoState) (sh : Bool) (c : Nat)
    (hc : c ∈ st.commits) (hs : isSeed st sh c = true) : c ∈ nodes st sh := by
  unfold nodes
  refine List.mem_filter.2 ⟨hc, ?_⟩
  unfold inGraphB
  refine List.any_eq_true.2 ⟨c, ?_, ?_⟩
  · unfold seeds
    exact List.mem_filter.2 ⟨hc, hs⟩
  · unfold reachB
    have hpos : 0 < st.commits.length := List.length_pos_of_mem hc
    cases hlen : st.commits.length with
    | zero => omega
    | succ k =>
      rw [reachFuel]
      simp

/-- C1, amended, part one and part two together: a hidden-verdict commit
outside the default graph contributes no row to the default rendering, and
every rendered row carrying a hidden glyph is the row of a commit whose
verdict is a hidden one, so it carries that verdict's suppression label. -/
theorem C1_amended_hidden_rendering :
    (∀ (st : RepoState) (c : Nat), verdict st c ≠ .visible →
        inGraphB st false c = false → ∀ r ∈ render st false, ¬ isRowFor c r) ∧
    (∀ (st : RepoState) (sh : Bool) (r : Row), r ∈ render st sh →
        rowGlyphHidden r = true →
        ∃ x, isRowFor x r ∧ verdict st x ≠ .visible ∧ r = rowOf st x) := by
  constructor
  · intro st c _ hg r hr hrow
    rcases render_sound st false r hr with h | ⟨x, hx1, _, hx3⟩
    · subst h; exact hrow
    · subst hx3
      have hxc : x = c := hrow
      subst hxc
      have hin : inGraphB st false x = true := (List.mem_filter.1 hx1).2
      rw [hg] at hin
      exact Bool.false_ne_true hin
  · intro st sh r hr hg
    rcases render_sound st sh r hr with h | ⟨x, _, _, hx3⟩
    · rw [h] at hg
      simp [rowGlyphHidden] at hg
    · subst hx3
      refine ⟨x, rfl, ?_, rfl⟩
      intro hv
      have hg2 : (glyphOf st x == Glyph.mainHidden
          || glyphOf st x == Glyph.draftHidden) = true := by
        simpa [rowOf, rowGlyphHidden] using hg
      unfold glyphOf at hg2
      rw [hv] at hg2
      by_cases hh : (x == st.head) = true
      · rw [if_pos hh] at hg2
        simp at hg2
      · rw [if_neg hh] at hg2
        cases hm : isMainAncB st x <;> rw [hm] at hg2 <;> simp at hg2

/-- Witness for the amended C1: in `hiddenOrphanState`, commit 5 is hidden
and outside the default graph, and indeed no default row mentions it. -/
theorem C1_amended_hidden_rendering_witness :
    verdict hiddenOrphanState 5 ≠ .visible ∧
    inGraphB hiddenOrphanState false 5 = false ∧
    (∀ r ∈ render hiddenOrphanState false, ¬ isRowFor 5 r) :=
  ⟨by decide, by decide,
    C1_amended_hidden_rendering.1 hiddenOrphanState 5 (by decide) (by decide)⟩

/-- C1, counterexample: in `hiddenTipState` commit 1 has a Hidden verdict
(manually hidden), yet the default rendering, without the include-hidden
flag, contains a row for it carrying a hidden glyph, because a branch
points at it — as in the committed test `test_show_only_branches`. -/
theorem C1_counterexample_hidden_row_in_default :
    verdict hiddenTipState 1 = .hiddenManual ∧
    ∃ r ∈ render hiddenTipState false, isRowFor 1 r ∧ rowGlyphHidden r = true := by
  decide

/-- C2, amended: an ancestor of the main branch that is not HEAD, is not
reachable from any other branch, has no branch pointing at it, is not
obsolete, and sits plainly on a lineage (at most one graph child and at
most one parent), stays out of the default rendering even when its latest
Hide/Unhide record is an explicit unhide; under an include-hidden query it
receives a row. -/
theorem C2_amended_public_unhidden_suppressed
    (st : RepoState) (rank : Nat → Nat) (hwf : WellFormed st rank)
    (c : Nat) (hc : c ∈ st.commits)
    (hmain : isMainAncB st c = true)
    (hh : c ≠ st.head)
    (hot : otherBranchReach st c = false)
    (hnames : branchNamesAt st c = [])
    (hunhide : latestVis st c = some false)
    (hobs : isObsolete st c = false)
    (hch : (childrenIn st false c).length ≤ 1)
    (hpar : (st.parents c).length ≤ 1) :
    (∀ r ∈ render st false, ¬ isRowFor c r) ∧
    (∃ r ∈ render st true, isRowFor c r) := by
  have hman : manuallyHidden st c = false := by
    unfold manuallyHidden
    rw [hunhide]
    rfl
  have hv : verdict st c = .visible :=
    verdict_visible_of st c hman hobs (anyTipReach_of_mainAnc st c hmain)
  constructor
  · intro r hr hrow
    rcases render_sound st false r hr with h | ⟨x, _, hx2, hx3⟩
    · subst h; exact hrow
    · subst hx3
      have hxc : x = c := hrow
      subst hxc
      have hel : elidable st false x = true :=
        elidable_true_of st false x hmain hh hnames hv
          (isSeed_false_of st x hh (isBranchTip_eq_false_of_names_nil st x hnames)
            (isPublicB_true_of st x hmain hh hot)) hch hpar
      rw [hel] at hx2
      simp at hx2
  · have hrec : recorded st c = true :=
      recorded_of_latestVis st c (by rw [hunhide]; exact Option.some_ne_none false)
    have hseed : isSeed st true c = true := isSeed_true_of_recorded st c hrec
    have hmem : c ∈ nodes st true := mem_nodes_self_of_seed st true c hc hseed
    exact ⟨rowOf st c,
      render_complete st true rank hwf hmem (elidable_false_of_seed st true c hseed),
      rfl⟩

/-- C2, counterexample: in `forkPointState` commit 0 satisfies every
hypothesis of the claim (main ancestor, not HEAD, reachable from no other
branch, latest record an explicit unhide), yet the default smartlog
renders a row for it, because the graph needs it as a fork point. -/
theorem C2_counterexample_fork_point_rendered :
    isMainAncB forkPointState 0 = true ∧
    (0 : Nat) ≠ forkPointState.head ∧
    otherBranchReach forkPointState 0 = false ∧
    latestVis forkPointState 0 = some false ∧
    ∃ r ∈ render forkPointState false, isRowFor 0 r := by
  decide

/-- The chain adjacency strictly decreases commit ids. -/
theorem chainParents_rank : ∀ c p, p ∈ chainParents c → p < c := by
  intro c p hp
  unfold chainParents at hp
  by_cases hc : c = 0
  · rw [if_pos hc] at hp
    exact absurd hp (List.not_mem_nil p)
  · rw [if_neg hc] at hp
    rw [List.mem_singleton] at hp
    subst hp
    exact Nat.sub_lt (Nat.pos_of_ne_zero hc) Nat.one_pos

/-- The identity rank witnesses acyclicity of `unhiddenChainState`. -/
theorem unhiddenChainState_wf : WellFormed unhiddenChainState (fun c => c) := by
  constructor
  · exact chainParents_rank
  · intro c hc
    simp only [unhiddenChainState, List.mem_cons, List.not_mem_nil, or_false] at hc
    rcases hc with h | h | h <;> subst h <;> simp [unhiddenChainState]

/-- Witness for the amended C2 at `unhiddenChainState`, commit 1. -/
theorem C2_amended_public_unhidden_suppressed_witness :
    WellFormed unhiddenChainState (fun c => c) ∧
    (1 : Nat) ∈ unhiddenChainState.commits ∧
    isMainAncB unhiddenChainState 1 = true ∧
    (1 : Nat) ≠ unhiddenChainState.head ∧
    otherBranchReach unhiddenChainState 1 = false ∧
    branchNamesAt unhiddenChainState 1 = [] ∧
    latestVis unhiddenChainState 1 = some false ∧
    isObsolete unhiddenChainState 1 = false ∧
    (childrenIn unhiddenChainState false 1).length ≤ 1 ∧
    (unhiddenChainState.parents 1).length ≤ 1 ∧
    ((∀ r ∈ render unhiddenChainState false, ¬ isRowFor 1 r) ∧
      (∃ r ∈ render unhiddenChainState true, isRowFor 1 r)) :=
  ⟨unhiddenChainState_wf, by decide, by decide, by decide, by decide, by decide,
    by decide, by decide, by decide, by decide,
    C2_amended_public_unhidden_suppressed unhiddenChainState (fun c => c)
      unhiddenChainState_wf 1 (by decide) (by decide) (by decide) (by decide)
      (by decide) (by decide) (by decide) (by decide) (by decide)⟩

/-- C3: the amend scenario: the amended commit 1 receives the verdict
Hidden(SupersededByRewrite, 2); the default rendering shows exactly the
main root and the replacement commit 2 at the current position and no row
for commit 1; the include-hidden rendering has a row for commit 1 carrying
the hidden glyph and the rewritten-as label naming its successor. -/
theorem C3_amend_scenario :
    verdict amendState 1 = .hiddenRewritten 2 ∧
    render amendState false = [rowOf amendState 0, rowOf amendState 2] ∧
    (∀ r ∈ render amendState false, ¬ isRowFor 1 r) ∧
    (∃ r ∈ render amendState true, isRowFor 1 r ∧
      r = Row.commitRow Glyph.draftHidden 1 [] (some (HiddenLabel.rewrittenLabel 2))) := by
  decide

/-- A filter of a range keeping exactly one index. -/
theorem filter_range_single (p : Nat → Bool) :
    ∀ (m j : Nat), j < m → (∀ d, d < m → (p d = true ↔ d = j)) →
      (List.range m).filter p = [j] := by
  intro m
  induction m with
  | zero => intro j hj _; omega
  | succ m ih =>
    intro j hj h
    rw [List.range_succ, List.filter_append]
    by_cases hjm : j = m
    · subst hjm
      have hfront : (List.range j).filter p = [] := by
        rw [List.filter_eq_nil_iff]
        intro a ha
        rw [List.mem_range] at ha
        intro hpa
        have := (h a (by omega)).1 hpa
        omega
      have hpj : p j = true := (h j (by omega)).2 rfl
      rw [hfront]
      simp [hpj]
    · have hfront : (List.range m).filter p = [j] :=
        ih j (by omega) (fun d hd => h d (by omega))
      have hpm : p m = false := by
        by_contra hpm
        rw [Bool.not_eq_false] at hpm
        have := (h m (by omega)).1 hpm
        omega
      rw [hfront]
      simp [hpm]

/-- A filter of a range keeping nothing. -/
theorem filter_range_nil (p : Nat → Bool) (m : Nat) (h : ∀ d, d < m → p d = false) :
    (List.range m).filter p = [] := by
  rw [List.filter_eq_nil_iff]
  intro a ha
  rw [List.mem_range] at ha
  simp [h a ha]

/-- A filter of a range keeping everything. -/
theorem filter_range_all (p : Nat → Bool) (m : Nat) (h : ∀ d, d < m → p d = true) :
    (List.range m).filter p = List.range m := by
  rw [List.filter_eq_self]
  intro a ha
  exact h a (List.mem_range.1 ha)

/-- A filter of a range keeping exactly two indices. -/
theorem filter_range_pair (p : Nat → Bool) :
    ∀ (m j k : Nat), j < k → k < m →
      (∀ d, d < m → (p d = true ↔ (d = j ∨ d = k))) →
      (List.range m).filter p = [j, k] := by
  intro m
  induction m with
  | zero => intro j k _ hk _; omega
  | succ m ih =>
    intro j k hjk hk h
    rw [List.range_succ, List.filter_append]
    by_cases hkm : k = m
    · subst hkm
      have hfront : (List.range k).filter p = [j] := by
        apply filter_range_single p k j hjk
        intro d hd
        rw [h d (by omega)]
        constructor
        · rintro (h1 | h1)
          · exact h1
          · omega
        · intro h1
          exact Or.inl h1
      have hpk : p k = true := (h k (by omega)).2 (Or.inr rfl)
      rw [hfront]
      simp [hpk]
    · have hfront := ih j k hjk (by omega) (fun d hd => h d (by omega))
      have hpm : p m = false := by
        by_contra hpm
        rw [Bool.not_eq_false] at hpm
        rcases (h m (by omega)).1 hpm with h1 | h1 <;> omega
      rw [hfront]
      simp [hpm]

/-- Sorting a singleton is the identity. -/
theorem sort_singleton (a : Nat) :
    List.insertionSort (fun x y => x ≤ y) [a] = [a] := rfl

/-- The chain reaches every smaller commit from the tip. -/
theorem linReaches (n : Nat) : ∀ k c : Nat, c + k = n → Reaches (linearState n) n c := by
  intro k
  induction k with
  | zero =>
    intro c h
    rw [Nat.add_zero] at h
    subst h
    exact .refl c
  | succ k ih =>
    intro c h
    refine Reaches_trans _ (ih (c + 1) (by omega)) (.step ?_ (.refl c))
    show c ∈ chainParents (c + 1)
    unfold chainParents
    rw [if_neg (Nat.succ_ne_zero c)]
    simp

/-- The fuel-bounded ancestry test confirms the chain reachability. -/
theorem linReachB (n c : Nat) (hc : c ≤ n) : reachB (linearState n) n c = true := by
  unfold reachB
  apply reachFuel_complete _ (fun x => x) chainParents_rank
    (linReaches n (n - c) c (by omega))
  show n < (linearState n).commits.length
  simp [linearState]

/-- The default seed set of the linear repository is the tip alone. -/
theorem lin_seeds (n : Nat) : seeds (linearState n) false = [n] := by
  unfold seeds
  apply filter_range_single _ (n + 1) n (by omega)
  intro d hd
  constructor
  · intro hs
    unfold isSeed at hs
    rw [Bool.or_eq_true, Bool.or_eq_true] at hs
    rcases hs with (hs | hs) | hs
    · simpa using hs
    · unfold isBranchTip at hs
      simp [linearState] at hs
      exact hs.symm
    · unfold recorded at hs
      simp [linearState] at hs
  · intro hd2
    subst hd2
    unfold isSeed
    simp [linearState]

/-- The linear graph contains the whole chain. -/
theorem lin_nodes (n : Nat) : nodes (linearState n) false = List.range (n + 1) := by
  unfold nodes
  apply filter_range_all
  intro d hd
  unfold inGraphB
  rw [lin_seeds n]
  exact List.any_eq_true.2 ⟨n, List.mem_singleton.2 rfl, linReachB n d (by omega)⟩

/-- Interior chain commits have exactly their successor as graph child. -/
theorem lin_children (n c : Nat) (hc : c < n) :
    childrenIn (linearState n) false c = [c + 1] := by
  unfold childrenIn
  rw [lin_nodes n]
  have hfil : (List.range (n + 1)).filter
      (fun d => ((linearState n).parents d).contains c) = [c + 1] := by
    apply filter_range_single _ (n + 1) (c + 1) (by omega)
    intro d hd
    constructor
    · intro hp
      rw [List.elem_iff] at hp
      have hp2 : c ∈ chainParents d := hp
      unfold chainParents at hp2
      by_cases hd0 : d = 0
      · rw [if_pos hd0] at hp2
        exact absurd hp2 (List.not_mem_nil c)
      · rw [if_neg hd0] at hp2
        rw [List.mem_singleton] at hp2
        omega
    · intro hd2
      subst hd2
      rw [List.elem_iff]
      show c ∈ chainParents (c + 1)
      unfold chainParents
      rw [if_neg (Nat.succ_ne_zero c)]
      simp
  rw [hfil]
  exact sort_singleton (c + 1)

/-- The chain tip has no graph children. -/
theorem lin_children_top (n : Nat) : childrenIn (linearState n) false n = [] := by
  unfold childrenIn
  rw [lin_nodes n]
  have hfil : (List.range (n + 1)).filter
      (fun d => ((linearState n).parents d).contains n) = [] := by
    apply filter_range_nil
    intro d hd
    by_contra hb
    rw [Bool.not_eq_false, List.elem_iff] at hb
    have hb2 : n ∈ chainParents d := hb
    unfold chainParents at hb2
    by_cases hd0 : d = 0
    · rw [if_pos hd0] at hb2
      exact absurd hb2 (List.not_mem_nil n)
    · rw [if_neg hd0] at hb2
      rw [List.mem_singleton] at hb2
      omega
  rw [hfil]
  rfl

/-- Interior chain commits are elided. -/
theorem lin_elidable (n c : Nat) (hc : c < n) :
    elidable (linearState n) false c = true := by
  have hmainanc : isMainAncB (linearState n) c = true := by
    unfold isMainAncB
    refine List.any_eq_true.2 ⟨_, List.mem_singleton.2 rfl, ?_⟩
    rw [Bool.and_eq_true]
    exact ⟨rfl, linReachB n c (by omega)⟩
  have hne : c ≠ n := by omega
  have hbt : isBranchTip (linearState n) c = false := by
    unfold isBranchTip
    simp [linearState]
    exact fun h => (Nat.ne_of_lt hc) h.symm
  have hnames : branchNamesAt (linearState n) c = [] := by
    unfold branchNamesAt
    have hfil : (linearState n).branches.filter (fun b => b.target == c) = [] := by
      rw [List.filter_eq_nil_iff]
      intro b hb
      simp only [linearState, List.mem_singleton] at hb
      subst hb
      simp
      exact fun h => (Nat.ne_of_lt hc) h.symm
    rw [hfil]
    rfl
  apply elidable_true_of
  · exact hmainanc
  · exact hne
  · exact hnames
  · apply verdict_visible_of
    · rfl
    · simp [isObsolete, resolveLatest, resolveAux, linearState]
    · unfold anyTipReach
      rw [Bool.or_eq_true]
      left
      exact linReachB n c (by omega)
  · exact isSeed_false_of _ _ hne hbt
      (isPublicB_true_of _ _ hmainanc hne
        (by unfold otherBranchReach; simp [linearState]))
  · rw [lin_children n c hc]
    simp
  · show (chainParents c).length ≤ 1
    unfold chainParents
    split <;> simp

/-- The chain root is the unique graph root. -/
theorem lin_roots (n : Nat) : rootsOf (linearState n) false = [0] := by
  unfold rootsOf
  rw [lin_nodes n]
  have hfil : (List.range (n + 1)).filter
      (fun c => (((linearState n).parents c).filter
        (fun p => (List.range (n + 1)).contains p)).isEmpty) = [0] := by
    apply filter_range_single _ (n + 1) 0 (by omega)
    intro d hd
    constructor
    · intro hp
      by_contra hd0
      have hpar : (linearState n).parents d = [d - 1] := by
        show chainParents d = _
        unfold chainParents
        rw [if_neg hd0]
      rw [List.isEmpty_iff] at hp
      have hmemf : d - 1 ∈ ((linearState n).parents d).filter
          (fun p => (List.range (n + 1)).contains p) := by
        rw [hpar]
        refine List.mem_filter.2 ⟨List.mem_singleton.2 rfl, ?_⟩
        rw [List.elem_iff, List.mem_range]
        omega
      rw [hp] at hmemf
      exact absurd hmemf (List.not_mem_nil _)
    · intro hd2
      subst hd2
      have hpar : (linearState n).parents 0 = [] := by
        show chainParents 0 = []
        unfold chainParents
        simp
      rw [hpar]
      rfl
  rw [hfil]
  rfl

/-- Depth-first emission of the chain: every interior commit contributes
one elision marker, the tip contributes its row. -/
theorem lin_emit (n : Nat) :
    ∀ k c f : Nat, c + k = n → k < f →
      emitTree (linearState n) false f c =
        List.replicate k Row.elisionRow ++ [rowOf (linearState n) n] := by
  intro k
  induction k with
  | zero =>
    intro c f h hf
    rw [Nat.add_zero] at h
    cases f with
    | zero => omega
    | succ f =>
      rw [emitTree, h, lin_children_top n]
      have hel : elidable (linearState n) false n = false := by
        unfold elidable
        simp [linearState]
      rw [hel]
      simp
  | succ k ih =>
    intro c f h hf
    cases f with
    | zero => omega
    | succ f =>
      have hc : c < n := by omega
      rw [emitTree, lin_children n c hc, lin_elidable n c hc]
      rw [List.replicate_succ]
      simp only [if_true, List.flatMap_cons, List.flatMap_nil, List.append_nil,
        List.cons_append, List.nil_append]
      rw [ih (c + 1) f (by omega) (by omega)]

/-- Collapsing a run of elision markers before a commit row leaves one
marker. -/
theorem collapse_replicate (r : Row) (hr : isElision r = false) :
    ∀ k : Nat, collapseElisions (List.replicate k Row.elisionRow ++ [r]) =
      if k = 0 then [r] else [Row.elisionRow, r] := by
  intro k
  induction k with
  | zero =>
    rw [if_pos rfl]
    have hstep : collapseElisions (List.replicate 0 Row.elisionRow ++ [r])
        = if (isElision r && false : Bool) then [] else [r] := rfl
    rw [hstep, Bool.and_false]
    rfl
  | succ k ih =>
    rw [List.replicate_succ, List.cons_append]
    have hstep : collapseElisions
        (Row.elisionRow :: (List.replicate k Row.elisionRow ++ [r]))
        = if (isElision Row.elisionRow
              && (match collapseElisions (List.replicate k Row.elisionRow ++ [r]) with
                  | a :: _ => isElision a
                  | [] => false) : Bool) then
            collapseElisions (List.replicate k Row.elisionRow ++ [r])
          else
            Row.elisionRow :: collapseElisions (List.replicate k Row.elisionRow ++ [r]) := by
      rw [collapseElisions]
    by_cases hk : k = 0
    · subst hk
      have htail : collapseElisions (List.replicate 0 Row.elisionRow ++ [r]) = [r] := by
        rw [ih, if_pos rfl]
      rw [hstep, htail]
      have hcond : (isElision Row.elisionRow
          && (match [r] with | a :: _ => isElision a | [] => false) : Bool) = false := by
        have hm : (match [r] with | a :: _ => isElision a | [] => false : Bool)
            = isElision r := rfl
        rw [hm, hr, Bool.and_false]
      rw [hcond]
      rfl
    · have htail : collapseElisions (List.replicate k Row.elisionRow ++ [r])
          = [Row.elisionRow, r] := by
        rw [ih, if_neg hk]
      rw [hstep, htail]
      have hcond : (isElision Row.elisionRow
          && (match [Row.elisionRow, r] with | a :: _ => isElision a | [] => false) : Bool)
          = true := rfl
      rw [hcond]
      rw [if_neg (Nat.succ_ne_zero k)]
      rfl

/-- C4: a linear run of plain public commits below the tip renders as one
elision marker row followed by the tip row, so the total number of output
rows is two, independent of the length of the run. -/
theorem C4_linear_run_elided (n : Nat) (hn : 1 ≤ n) :
    render (linearState n) false = [Row.elisionRow, rowOf (linearState n) n] ∧
    (render (linearState n) false).length = 2 := by
  have hmain : render (linearState n) false
      = [Row.elisionRow, rowOf (linearState n) n] := by
    unfold render
    rw [lin_roots n]
    simp only [List.flatMap_cons, List.flatMap_nil, List.append_nil]
    have hlen : (linearState n).commits.length = n + 1 := by simp [linearState]
    rw [hlen]
    rw [lin_emit n n 0 (n + 1 + 1) (by omega) (by omega)]
    rw [collapse_replicate (rowOf (linearState n) n) rfl n]
    rw [if_neg (by omega)]
  exact ⟨hmain, by rw [hmain]; rfl⟩

/-- Witness for C4 at a run of three commits. -/
theorem C4_linear_run_elided_witness :
    1 ≤ 3 ∧
    (render (linearState 3) false = [Row.elisionRow, rowOf (linearState 3) 3] ∧
      (render (linearState 3) false).length = 2) :=
  ⟨by decide, C4_linear_run_elided 3 (by decide)⟩

/-- Parents strictly decrease commit ids in the merge repository. -/
theorem mergeParents_rank (q : Nat) :
    ∀ c p : Nat, p ∈ (mergeState q).parents c → p < c := by
  intro c p hp
  have hp2 : p ∈ (if c = 0 then ([] : List Nat) else if c = 1 then [0]
      else if c = q + 2 then [1, q + 1] else if c = 2 then [0] else [c - 1]) := hp
  by_cases h0 : c = 0
  · rw [if_pos h0] at hp2
    exact absurd hp2 (List.not_mem_nil p)
  rw [if_neg h0] at hp2
  by_cases h1 : c = 1
  · rw [if_pos h1] at hp2
    rw [List.mem_singleton] at hp2
    subst hp2
    subst h1
    exact Nat.one_pos
  rw [if_neg h1] at hp2
  by_cases hm : c = q + 2
  · rw [if_pos hm] at hp2
    subst hm
    rcases List.mem_cons.1 hp2 with h | h
    · subst h; omega
    · rw [List.mem_singleton] at h
      subst h
      omega
  rw [if_neg hm] at hp2
  by_cases h2 : c = 2
  · rw [if_pos h2] at hp2
    rw [List.mem_singleton] at hp2
    subst hp2
    subst h2
    exact Nat.two_pos
  rw [if_neg h2] at hp2
  rw [List.mem_singleton] at hp2
  subst hp2
  exact Nat.sub_lt (Nat.pos_of_ne_zero h0) Nat.one_pos

/-- Parents of the merge-repository root. -/
theorem mergeParents_0 (q : Nat) : (mergeState q).parents 0 = [] := rfl

/-- Parents of the first-lineage commit. -/
theorem mergeParents_1 (q : Nat) : (mergeState q).parents 1 = [0] := rfl

/-- Parents of the merge commit. -/
theorem mergeParents_m (q : Nat) (hq : 1 ≤ q) :
    (mergeState q).parents (q + 2) = [1, q + 1] := by
  have h0 : ¬(q + 2 = 0) := by omega
  have h1 : ¬(q + 2 = 1) := by omega
  show (if q + 2 = 0 then ([] : List Nat) else if q + 2 = 1 then [0]
      else if q + 2 = q + 2 then [1, q + 1] else if q + 2 = 2 then [0]
      else [q + 2 - 1]) = [1, q + 1]
  rw [if_neg h0, if_neg h1, if_pos rfl]

/-- Parents of the start of the second lineage. -/
theorem mergeParents_2 (q : Nat) (hq : 1 ≤ q) : (mergeState q).parents 2 = [0] := by
  have h0 : ¬((2 : Nat) = 0) := by omega
  have h1 : ¬((2 : Nat) = 1) := by omega
  have hm : ¬((2 : Nat) = q + 2) := by omega
  show (if (2 : Nat) = 0 then ([] : List Nat) else if (2 : Nat) = 1 then [0]
      else if (2 : Nat) = q + 2 then [1, q + 1] else if (2 : Nat) = 2 then [0]
      else [2 - 1]) = [0]
  rw [if_neg h0, if_neg h1, if_neg hm, if_pos rfl]

/-- Parents of an interior commit of the second lineage. -/
theorem mergeParents_chain (q c : Nat) (h3 : 3 ≤ c) (hc : c ≤ q + 1) :
    (mergeState q).parents c = [c - 1] := by
  have h0 : ¬(c = 0) := by omega
  have h1 : ¬(c = 1) := by omega
  have hm : ¬(c = q + 2) := by omega
  have h2 : ¬(c = 2) := by omega
  show (if c = 0 then ([] : List Nat) else if c = 1 then [0]
      else if c = q + 2 then [1, q + 1] else if c = 2 then [0]
      else [c - 1]) = [c - 1]
  rw [if_neg h0, if_neg h1, if_neg hm, if_neg h2]

/-- The second-lineage tip reaches every commit of its lineage. -/
theorem mergeReaches_chain (q : Nat) :
    ∀ k c : Nat, 2 ≤ c → c + k = q + 1 → Reaches (mergeState q) (q + 1) c := by
  intro k
  induction k with
  | zero =>
    intro c _ h
    rw [Nat.add_zero] at h
    subst h
    exact .refl _
  | succ k ih =>
    intro c h2 h
    refine Reaches_trans _ (ih (c + 1) (by omega) (by omega)) (.step ?_ (.refl c))
    rw [mergeParents_chain q (c + 1) (by omega) (by omega)]
    simp

/-- The merge commit reaches the whole merge repository. -/
theorem mergeReachesAll (q : Nat) (hq : 1 ≤ q) :
    ∀ c : Nat, c < q + 3 → Reaches (mergeState q) (q + 2) c := by
  intro c hc
  by_cases hm : c = q + 2
  · subst hm
    exact .refl _
  by_cases h1 : c = 1
  · subst h1
    exact .step (by rw [mergeParents_m q hq]; simp) (.refl 1)
  by_cases h0 : c = 0
  · subst h0
    refine .step (show (1 : Nat) ∈ (mergeState q).parents (q + 2) by
      rw [mergeParents_m q hq]; simp) (.step ?_ (.refl 0))
    rw [mergeParents_1 q]
    simp
  · refine .step (show q + 1 ∈ (mergeState q).parents (q + 2) by
      rw [mergeParents_m q hq]; simp) ?_
    exact mergeReaches_chain q (q + 1 - c) c (by omega) (by omega)

/-- The fuel-bounded ancestry test confirms reachability from the merge
commit. -/
theorem mergeReachB (q : Nat) (hq : 1 ≤ q) (c : Nat) (hc : c < q + 3) :
    reachB (mergeState q) (q + 2) c = true := by
  unfold reachB
  apply reachFuel_complete _ (fun x => x) (mergeParents_rank q) (mergeReachesAll q hq c hc)
  show q + 2 < (mergeState q).commits.length
  simp [mergeState]

/-- The merge graph contains the whole repository. -/
theorem merge_nodes (q : Nat) (hq : 1 ≤ q) :
    nodes (mergeState q) false = List.range (q + 3) := by
  unfold nodes
  apply filter_range_all
  intro d hd
  unfold inGraphB
  refine List.any_eq_true.2 ⟨q + 2, ?_, mergeReachB q hq d hd⟩
  unfold seeds
  refine List.mem_filter.2 ⟨?_, ?_⟩
  · show q + 2 ∈ List.range (q + 3)
    rw [List.mem_range]
    omega
  · unfold isSeed
    simp [mergeState]

/-- Graph children of the merge-repository root. -/
theorem merge_children_0 (q : Nat) (hq : 1 ≤ q) :
    childrenIn (mergeState q) false 0 = [1, 2] := by
  unfold childrenIn
  rw [merge_nodes q hq]
  have hfil : (List.range (q + 3)).filter
      (fun d => ((mergeState q).parents d).contains 0) = [1, 2] := by
    apply filter_range_pair _ (q + 3) 1 2 (by omega) (by omega)
    intro d hd
    constructor
    · intro hp
      rw [List.elem_iff] at hp
      by_cases hd0 : d = 0
      · subst hd0
        rw [mergeParents_0] at hp
        exact absurd hp (List.not_mem_nil 0)
      by_cases hd1 : d = 1
      · exact Or.inl hd1
      by_cases hdm : d = q + 2
      · subst hdm
        rw [mergeParents_m q hq] at hp
        rcases List.mem_cons.1 hp with h | h
        · omega
        · rw [List.mem_singleton] at h
          omega
      by_cases hd2 : d = 2
      · exact Or.inr hd2
      · rw [mergeParents_chain q d (by omega) (by omega)] at hp
        rw [List.mem_singleton] at hp
        omega
    · rintro (hd1 | hd2)
      · subst hd1
        rw [List.elem_iff, mergeParents_1]
        simp
      · subst hd2
        rw [List.elem_iff, mergeParents_2 q hq]
        simp
  rw [hfil]
  rfl

/-- Graph children of the first-lineage commit: the merge commit alone. -/
theorem merge_children_1 (q : Nat) (hq : 1 ≤ q) :
    childrenIn (mergeState q) false 1 = [q + 2] := by
  unfold childrenIn
  rw [merge_nodes q hq]
  have hfil : (List.range (q + 3)).filter
      (fun d => ((mergeState q).parents d).contains 1) = [q + 2] := by
    apply filter_range_single _ (q + 3) (q + 2) (by omega)
    intro d hd
    constructor
    · intro hp
      rw [List.elem_iff] at hp
      by_cases hd0 : d = 0
      · subst hd0
        rw [mergeParents_0] at hp
        exact absurd hp (List.not_mem_nil 1)
      by_cases hd1 : d = 1
      · subst hd1
        rw [mergeParents_1] at hp
        rw [List.mem_singleton] at hp
        omega
      by_cases hdm : d = q + 2
      · exact hdm
      by_cases hd2 : d = 2
      · subst hd2
        rw [mergeParents_2 q hq] at hp
        rw [List.mem_singleton] at hp
        omega
      · rw [mergeParents_chain q d (by omega) (by omega)] at hp
        rw [List.mem_singleton] at hp
        omega
    · intro hdm
      subst hdm
      rw [List.elem_iff, mergeParents_m q hq]
      simp
  rw [hfil]
  exact sort_singleton (q + 2)

/-- Graph children of an interior commit of the second lineage. -/
theorem merge_children_chain (q c : Nat) (hq : 1 ≤ q) (h2 : 2 ≤ c) (hcq : c ≤ q) :
    childrenIn (mergeState q) false c = [c + 1] := by
  unfold childrenIn
  rw [merge_nodes q hq]
  have hfil : (List.range (q + 3)).filter
      (fun d => ((mergeState q).parents d).contains c) = [c + 1] := by
    apply filter_range_single _ (q + 3) (c + 1) (by omega)
    intro d hd
    constructor
    · intro hp
      rw [List.elem_iff] at hp
      by_cases hd0 : d = 0
      · subst hd0
        rw [mergeParents_0] at hp
        exact absurd hp (List.not_mem_nil c)
      by_cases hd1 : d = 1
      · subst hd1
        rw [mergeParents_1] at hp
        rw [List.mem_singleton] at hp
        omega
      by_cases hdm : d = q + 2
      · subst hdm
        rw [mergeParents_m q hq] at hp
        rcases List.mem_cons.1 hp with h | h
        · omega
        · rw [List.mem_singleton] at h
          omega
      by_cases hd2 : d = 2
      · subst hd2
        rw [mergeParents_2 q hq] at hp
        rw [List.mem_singleton] at hp
        omega
      · rw [mergeParents_chain q d (by omega) (by omega)] at hp
        rw [List.mem_singleton] at hp
        omega
    · intro hd2
      subst hd2
      rw [List.elem_iff, mergeParents_chain q (c + 1) (by omega) (by omega)]
      simp
  rw [hfil]
  exact sort_singleton (c + 1)

/-- Graph children of the second-lineage tip: the merge commit alone. -/
theorem merge_children_top (q : Nat) (hq : 1 ≤ q) :
    childrenIn (mergeState q) false (q + 1) = [q + 2] := by
  unfold childrenIn
  rw [merge_nodes q hq]
  have hfil : (List.range (q + 3)).filter
      (fun d => ((mergeState q).parents d).contains (q + 1)) = [q + 2] := by
    apply filter_range_single _ (q + 3) (q + 2) (by omega)
    intro d hd
    constructor
    · intro hp
      rw [List.elem_iff] at hp
      by_cases hd0 : d = 0
      · subst hd0
        rw [mergeParents_0] at hp
        exact absurd hp (List.not_mem_nil (q + 1))
      by_cases hd1 : d = 1
      · subst hd1
        rw [mergeParents_1] at hp
        rw [List.mem_singleton] at hp
        omega
      by_cases hdm : d = q + 2
      · exact hdm
      by_cases hd2 : d = 2
      · subst hd2
        rw [mergeParents_2 q hq] at hp
        rw [List.mem_singleton] at hp
        omega
      · rw [mergeParents_chain q d (by omega) (by omega)] at hp
        rw [List.mem_singleton] at hp
        omega
    · intro hdm
      subst hdm
      rw [List.elem_iff, mergeParents_m q hq]
      simp
  rw [hfil]
  exact sort_singleton (q + 2)

/-- The merge commit has no graph children. -/
theorem merge_children_m (q : Nat) (hq : 1 ≤ q) :
    childrenIn (mergeState q) false (q + 2) = [] := by
  unfold childrenIn
  rw [merge_nodes q hq]
  have hfil : (List.range (q + 3)).filter
      (fun d => ((mergeState q).parents d).contains (q + 2)) = [] := by
    apply filter_range_nil
    intro d hd
    by_contra hb
    rw [Bool.not_eq_false, List.elem_iff] at hb
    by_cases hd0 : d = 0
    · subst hd0
      rw [mergeParents_0] at hb
      exact absurd hb (List.not_mem_nil (q + 2))
    by_cases hd1 : d = 1
    · subst hd1
      rw [mergeParents_1] at hb
      rw [List.mem_singleton] at hb
      omega
    by_cases hdm : d = q + 2
    · subst hdm
      rw [mergeParents_m q hq] at hb
      rcases List.mem_cons.1 hb with h | h
      · omega
      · rw [List.mem_singleton] at h
        omega
    by_cases hd2 : d = 2
    · subst hd2
      rw [mergeParents_2 q hq] at hb
      rw [List.mem_singleton] at hb
      omega
    · rw [mergeParents_chain q d (by omega) (by omega)] at hb
      rw [List.mem_singleton] at hb
      omega
  rw [hfil]
  rfl

/-- The merge commit, as HEAD, is never elided. -/
theorem merge_elidable_m (q : Nat) : elidable (mergeState q) false (q + 2) = false := by
  unfold elidable
  simp [mergeState]

/-- The head part of the emission of a commit other than the merge commit
contributes no merge-commit row. -/
theorem merge_head_count (q c : Nat) (hc : c ≠ q + 2) :
    List.countP (rowForB (q + 2))
      (if elidable (mergeState q) false c then [Row.elisionRow]
       else [rowOf (mergeState q) c]) = 0 := by
  split
  · simp [List.countP_cons, rowForB]
  · simp [List.countP_cons, rowOf, rowForB, hc]

/-- Emitting the merge commit contributes exactly one merge-commit row. -/
theorem count_emit_m (q : Nat) (hq : 1 ≤ q) :
    ∀ f : Nat, 1 ≤ f →
      List.countP (rowForB (q + 2)) (emitTree (mergeState q) false f (q + 2)) = 1 := by
  intro f hf
  cases f with
  | zero => omega
  | succ f =>
    rw [emitTree, merge_children_m q hq, merge_elidable_m q]
    simp [List.countP_cons, rowOf, rowForB]

/-- Emitting the second lineage contributes exactly one merge-commit
row. -/
theorem count_emit_chain (q : Nat) (hq : 1 ≤ q) :
    ∀ k c f : Nat, 2 ≤ c → c + k = q + 1 → k + 2 ≤ f →
      List.countP (rowForB (q + 2)) (emitTree (mergeState q) false f c) = 1 := by
  intro k
  induction k with
  | zero =>
    intro c f h2 h hf
    rw [Nat.add_zero] at h
    cases f with
    | zero => omega
    | succ f =>
      rw [emitTree, h, merge_children_top q hq]
      rw [List.countP_append, merge_head_count q (q + 1) (by omega)]
      simp only [List.flatMap_cons, List.flatMap_nil, List.append_nil]
      rw [count_emit_m q hq f (by omega)]
  | succ k ih =>
    intro c f h2 h hf
    cases f with
    | zero => omega
    | succ f =>
      rw [emitTree, merge_children_chain q c hq h2 (by omega)]
      rw [List.countP_append, merge_head_count q c (by omega)]
      simp only [List.flatMap_cons, List.flatMap_nil, List.append_nil]
      rw [ih (c + 1) f (by omega) (by omega) (by omega)]

/-- Emitting the first lineage contributes exactly one merge-commit row. -/
theorem count_emit_1 (q : Nat) (hq : 1 ≤ q) :
    ∀ f : Nat, 2 ≤ f →
      List.countP (rowForB (q + 2)) (emitTree (mergeState q) false f 1) = 1 := by
  intro f hf
  cases f with
  | zero => omega
  | succ f =>
    rw [emitTree, merge_children_1 q hq]
    rw [List.countP_append, merge_head_count q 1 (by omega)]
    simp only [List.flatMap_cons, List.flatMap_nil, List.append_nil]
    rw [count_emit_m q hq f (by omega)]

/-- The merge-repository root is the unique graph root. -/
theorem merge_roots (q : Nat) (hq : 1 ≤ q) :
    rootsOf (mergeState q) false = [0] := by
  unfold rootsOf
  rw [merge_nodes q hq]
  have hfil : (List.range (q + 3)).filter
      (fun c => (((mergeState q).parents c).filter
        (fun p => (List.range (q + 3)).contains p)).isEmpty) = [0] := by
    apply filter_range_single _ (q + 3) 0 (by omega)
    intro d hd
    constructor
    · intro hp
      rw [List.isEmpty_iff] at hp
      by_contra hd0
      have hex : ∃ p, p ∈ (mergeState q).parents d ∧ p < q + 3 := by
        by_cases hd1 : d = 1
        · subst hd1
          exact ⟨0, by rw [mergeParents_1]; simp, by omega⟩
        by_cases hdm : d = q + 2
        · subst hdm
          exact ⟨1, by rw [mergeParents_m q hq]; simp, by omega⟩
        by_cases hd2 : d = 2
        · subst hd2
          exact ⟨0, by rw [mergeParents_2 q hq]; simp, by omega⟩
        · exact ⟨d - 1, by rw [mergeParents_chain q d (by omega) (by omega)]; simp,
            by omega⟩
      rcases hex with ⟨p, hp1, hp2⟩
      have hmemf : p ∈ ((mergeState q).parents d).filter
          (fun p => (List.range (q + 3)).contains p) := by
        refine List.mem_filter.2 ⟨hp1, ?_⟩
        rw [List.elem_iff, List.mem_range]
        exact hp2
      rw [hp] at hmemf
      exact absurd hmemf (List.not_mem_nil p)
    · intro hd0
      subst hd0
      rw [mergeParents_0]
      rfl
  rw [hfil]
  rfl

/-- C5: the merge commit terminating the two lineages receives one row per
lineage: the rendered smartlog contains exactly two rows for it, whatever
the length of the second lineage. -/
theorem C5_merge_commit_row_per_lineage (q : Nat) (hq : 1 ≤ q) :
    List.countP (rowForB (q + 2)) (render (mergeState q) false) = 2 := by
  unfold render
  rw [collapseElisions_countP (rowForB (q + 2)) rfl]
  rw [merge_roots q hq]
  simp only [List.flatMap_cons, List.flatMap_nil, List.append_nil]
  have hlen : (mergeState q).commits.length = q + 3 := by simp [mergeState]
  rw [hlen]
  rw [emitTree, merge_children_0 q hq]
  rw [List.countP_append, merge_head_count q 0 (by omega)]
  simp only [List.flatMap_cons, List.flatMap_nil, List.append_nil]
  rw [List.countP_append]
  rw [count_emit_1 q hq (q + 3) (by omega)]
  rw [count_emit_chain q hq (q - 1) 2 (q + 3) (by omega) (by omega) (by omega)]

/-- Witness for C5 with a second lineage of length two. -/
theorem C5_merge_commit_row_per_lineage_witness :
    1 ≤ 2 ∧ List.countP (rowForB (2 + 2)) (render (mergeState 2) false) = 2 :=
  ⟨by decide, C5_merge_commit_row_per_lineage 2 (by decide)⟩

/-- Reordering the branch list leaves the head field unchanged. -/
theorem branches_head (st : RepoState) (bs2 : List Branch) :
    ({st with branches := bs2} : RepoState).head = st.head := rfl

/-- Reordering the branch list leaves the parent adjacency unchanged. -/
theorem branches_parents (st : RepoState) (bs2 : List Branch) :
    ({st with branches := bs2} : RepoState).parents = st.parents := rfl

/-- Reordering the branch list leaves the commit universe unchanged. -/
theorem branches_commits (st : RepoState) (bs2 : List Branch) :
    ({st with branches := bs2} : RepoState).commits = st.commits := rfl

/-- Reordering the branch list leaves the event log unchanged. -/
theorem branches_events (st : RepoState) (bs2 : List Branch) :
    ({st with branches := bs2} : RepoState).events = st.events := rfl

/-- Sorting two permuted string lists gives the same list. -/
theorem insertionSort_eq_of_perm {l1 l2 : List String} (h : l1.Perm l2) :
    List.insertionSort (fun a b => a ≤ b) l1
      = List.insertionSort (fun a b => a ≤ b) l2 := by
  have s1 : List.Sorted (fun a b : String => a ≤ b)
      (List.insertionSort (fun a b => a ≤ b) l1) := List.sorted_insertionSort _ l1
  have s2 : List.Sorted (fun a b : String => a ≤ b)
      (List.insertionSort (fun a b => a ≤ b) l2) := List.sorted_insertionSort _ l2
  exact List.eq_of_perm_of_sorted
    ((List.perm_insertionSort _ _).trans (h.trans (List.perm_insertionSort _ _).symm))
    s1 s2

/-- The ancestry test ignores the branch list. -/
theorem reachFuel_branches (st : RepoState) (bs2 : List Branch) :
    ∀ f s c : Nat, reachFuel {st with branches := bs2} f s c = reachFuel st f s c := by
  intro f
  induction f with
  | zero => intro s c; rfl
  | succ f ih =>
    intro s c
    rw [reachFuel, reachFuel]
    have hfun : ∀ p, reachFuel {st with branches := bs2} f p c = reachFuel st f p c :=
      fun p => ih p c
    show (decide (s = c)
        || (st.parents s).any fun p => reachFuel {st with branches := bs2} f p c)
      = (decide (s = c) || (st.parents s).any fun p => reachFuel st f p c)
    rw [any_ext _ _ _ hfun]

/-- The standard-fuel ancestry test ignores the branch list. -/
theorem reachB_branches (st : RepoState) (bs2 : List Branch) (s c : Nat) :
    reachB {st with branches := bs2} s c = reachB st s c := by
  unfold reachB
  show reachFuel {st with branches := bs2} st.commits.length s c
    = reachFuel st st.commits.length s c
  exact reachFuel_branches st bs2 st.commits.length s c

/-- The visibility record ignores the branch list. -/
theorem manuallyHidden_branches (st : RepoState) (bs2 : List Branch) (c : Nat) :
    manuallyHidden {st with branches := bs2} c = manuallyHidden st c := rfl

/-- The event-record test ignores the branch list. -/
theorem recorded_branches (st : RepoState) (bs2 : List Branch) (c : Nat) :
    recorded {st with branches := bs2} c = recorded st c := rfl

/-- The rewrite resolution ignores the branch list. -/
theorem resolveAux_branches (st : RepoState) (bs2 : List Branch) (start : Nat) :
    ∀ (f : Nat) (visited : List Nat) (c : Nat),
      resolveAux {st with branches := bs2} start f visited c
        = resolveAux st start f visited c := by
  intro f
  induction f with
  | zero => intro visited c; rfl
  | succ f ih =>
    intro visited c
    rw [resolveAux, resolveAux]
    rw [show rewriteTarget {st with branches := bs2} c = rewriteTarget st c from rfl]
    cases hrt : rewriteTarget st c with
    | none => rfl
    | some o =>
      cases o with
      | none => rfl
      | some n =>
        simp only []
        split
        · rfl
        · exact ih (n :: visited) n

/-- resolve_latest ignores the branch list. -/
theorem resolveLatest_branches (st : RepoState) (bs2 : List Branch) (c : Nat) :
    resolveLatest {st with branches := bs2} c = resolveLatest st c := by
  unfold resolveLatest
  show resolveAux {st with branches := bs2} c st.events.length [c] c
    = resolveAux st c st.events.length [c] c
  exact resolveAux_branches st bs2 c st.events.length [c] c

/-- Obsolescence ignores the branch list. -/
theorem isObsolete_branches (st : RepoState) (bs2 : List Branch) (c : Nat) :
    isObsolete {st with branches := bs2} c = isObsolete st c := by
  unfold isObsolete
  rw [resolveLatest_branches]

/-- Branch-tip membership is invariant under branch reordering. -/
theorem isBranchTip_branches (st : RepoState) (bs2 : List Branch)
    (hp : st.branches.Perm bs2) (c : Nat) :
    isBranchTip {st with branches := bs2} c = isBranchTip st c := by
  unfold isBranchTip
  exact any_perm hp.symm _

/-- Main-ancestry is invariant under branch reordering. -/
theorem isMainAncB_branches (st : RepoState) (bs2 : List Branch)
    (hp : st.branches.Perm bs2) (c : Nat) :
    isMainAncB {st with branches := bs2} c = isMainAncB st c := by
  unfold isMainAncB
  rw [any_perm hp.symm]
  apply any_ext
  intro b
  rw [reachB_branches st bs2 b.target c]

/-- Other-branch reachability is invariant under branch reordering. -/
theorem otherBranchReach_branches (st : RepoState) (bs2 : List Branch)
    (hp : st.branches.Perm bs2) (c : Nat) :
    otherBranchReach {st with branches := bs2} c = otherBranchReach st c := by
  unfold otherBranchReach
  rw [any_perm hp.symm]
  apply any_ext
  intro b
  rw [reachB_branches st bs2 b.target c]

/-- Tip reachability is invariant under branch reordering. -/
theorem anyTipReach_branches (st : RepoState) (bs2 : List Branch)
    (hp : st.branches.Perm bs2) (c : Nat) :
    anyTipReach {st with branches := bs2} c = anyTipReach st c := by
  unfold anyTipReach
  rw [branches_head, reachB_branches, any_perm hp.symm]
  congr 1
  apply any_ext
  intro b
  rw [reachB_branches st bs2 b.target c]

/-- Branch-name annotations are invariant under branch reordering. -/
theorem branchNamesAt_branches (st : RepoState) (bs2 : List Branch)
    (hp : st.branches.Perm bs2) (c : Nat) :
    branchNamesAt {st with branches := bs2} c = branchNamesAt st c := by
  unfold branchNamesAt
  exact insertionSort_eq_of_perm (((hp.symm).filter _).map _)

/-- Successor visibility is invariant under branch reordering. -/
theorem succVisibleB_branches (st : RepoState) (bs2 : List Branch)
    (hp : st.branches.Perm bs2) (s : Nat) :
    succVisibleB {st with branches := bs2} s = succVisibleB st s := by
  unfold succVisibleB
  rw [manuallyHidden_branches, anyTipReach_branches st bs2 hp]

/-- The visibility verdict is invariant under branch reordering. -/
theorem verdict_branches (st : RepoState) (bs2 : List Branch)
    (hp : st.branches.Perm bs2) (c : Nat) :
    verdict {st with branches := bs2} c = verdict st c := by
  unfold verdict
  rw [manuallyHidden_branches, isObsolete_branches, resolveLatest_branches,
    succVisibleB_branches st bs2 hp, anyTipReach_branches st bs2 hp]

/-- Publicness is invariant under branch reordering. -/
theorem isPublicB_branches (st : RepoState) (bs2 : List Branch)
    (hp : st.branches.Perm bs2) (c : Nat) :
    isPublicB {st with branches := bs2} c = isPublicB st c := by
  unfold isPublicB
  rw [isMainAncB_branches st bs2 hp, otherBranchReach_branches st bs2 hp,
    branches_head]

/-- Seeding is invariant under branch reordering. -/
theorem isSeed_branches (st : RepoState) (bs2 : List Branch)
    (hp : st.branches.Perm bs2) (sh : Bool) (c : Nat) :
    isSeed {st with branches := bs2} sh c = isSeed st sh c := by
  unfold isSeed
  rw [branches_head, isBranchTip_branches st bs2 hp, recorded_branches,
    verdict_branches st bs2 hp, isPublicB_branches st bs2 hp]

/-- The seed list is invariant under branch reordering. -/
theorem seeds_branches (st : RepoState) (bs2 : List Branch)
    (hp : st.branches.Perm bs2) (sh : Bool) :
    seeds {st with branches := bs2} sh = seeds st sh := by
  unfold seeds
  rw [branches_commits]
  exact List.filter_congr (fun x _ => isSeed_branches st bs2 hp sh x)

/-- Graph membership is invariant under branch reordering. -/
theorem inGraphB_branches (st : RepoState) (bs2 : List Branch)
    (hp : st.branches.Perm bs2) (sh : Bool) (c : Nat) :
    inGraphB {st with branches := bs2} sh c = inGraphB st sh c := by
  unfold inGraphB
  rw [seeds_branches st bs2 hp]
  apply any_ext
  intro s
  rw [reachB_branches st bs2 s c]

/-- The graph node list is invariant under branch reordering. -/
theorem nodes_branches (st : RepoState) (bs2 : List Branch)
    (hp : st.branches.Perm bs2) (sh : Bool) :
    nodes {st with branches := bs2} sh = nodes st sh := by
  unfold nodes
  rw [branches_commits]
  exact List.filter_congr (fun x _ => inGraphB_branches st bs2 hp sh x)

/-- Graph children are invariant under branch reordering. -/
theorem childrenIn_branches (st : RepoState) (bs2 : List Branch)
    (hp : st.branches.Perm bs2) (sh : Bool) (c : Nat) :
    childrenIn {st with branches := bs2} sh c = childrenIn st sh c := by
  unfold childrenIn
  rw [nodes_branches st bs2 hp, branches_parents]

/-- Elision is invariant under branch reordering. -/
theorem elidable_branches (st : RepoState) (bs2 : List Branch)
    (hp : st.branches.Perm bs2) (sh : Bool) (c : Nat) :
    elidable {st with branches := bs2} sh c = elidable st sh c := by
  unfold elidable
  rw [isMainAncB_branches st bs2 hp, branches_head,
    branchNamesAt_branches st bs2 hp, verdict_branches st bs2 hp,
    isSeed_branches st bs2 hp, childrenIn_branches st bs2 hp, branches_parents]

/-- Glyphs are invariant under branch reordering. -/
theorem glyphOf_branches (st : RepoState) (bs2 : List Branch)
    (hp : st.branches.Perm bs2) (c : Nat) :
    glyphOf {st with branches := bs2} c = glyphOf st c := by
  unfold glyphOf
  rw [branches_head, verdict_branches st bs2 hp, isMainAncB_branches st bs2 hp]

/-- Rows are invariant under branch reordering. -/
theorem rowOf_branches (st : RepoState) (bs2 : List Branch)
    (hp : st.branches.Perm bs2) (c : Nat) :
    rowOf {st with branches := bs2} c = rowOf st c := by
  unfold rowOf
  rw [glyphOf_branches st bs2 hp, branchNamesAt_branches st bs2 hp,
    verdict_branches st bs2 hp]

/-- Depth-first emission is invariant under branch reordering. -/
theorem emitTree_branches (st : RepoState) (bs2 : List Branch)
    (hp : st.branches.Perm bs2) (sh : Bool) :
    ∀ f c : Nat, emitTree {st with branches := bs2} sh f c = emitTree st sh f c := by
  intro f
  induction f with
  | zero => intro c; rfl
  | succ f ih =>
    intro c
    rw [emitTree, emitTree, elidable_branches st bs2 hp, rowOf_branches st bs2 hp,
      childrenIn_branches st bs2 hp]
    congr 1
    apply List.flatMap_congr
    intro d _
    exact ih d

/-- Graph roots are invariant under branch reordering. -/
theorem rootsOf_branches (st : RepoState) (bs2 : List Branch)
    (hp : st.branches.Perm bs2) (sh : Bool) :
    rootsOf {st with branches := bs2} sh = rootsOf st sh := by
  unfold rootsOf
  rw [nodes_branches st bs2 hp, branches_parents]

/-- C7: the rendered smartlog is a deterministic function of the
repository state: however the repository adapter happens to order its
branch enumeration, two invocations over the same commits, parents, HEAD
and event log produce the same rows, with sibling ordering fixed by commit
id and branch annotations sorted by name. -/
theorem C7_render_branch_order_invariant (st : RepoState) (bs2 : List Branch)
    (hp : st.branches.Perm bs2) (sh : Bool) :
    render {st with branches := bs2} sh = render st sh := by
  unfold render
  rw [rootsOf_branches st bs2 hp, branches_commits]
  congr 1
  apply List.flatMap_congr
  intro r _
  exact emitTree_branches st bs2 hp sh (st.commits.length + 1) r

/-- Witness for C7: swapping the two branches of `hiddenTipState` leaves
the rendering unchanged. -/
theorem C7_render_branch_order_invariant_witness :
    hiddenTipState.branches.Perm
      [⟨"feature", 1, false, false⟩, ⟨"master", 0, false, true⟩] ∧
    render {hiddenTipState with
        branches := [⟨"feature", 1, false, false⟩, ⟨"master", 0, false, true⟩]} false
      = render hiddenTipState false :=
  ⟨by decide,
    C7_render_branch_order_invariant hiddenTipState
      [⟨"feature", 1, false, false⟩, ⟨"master", 0, false, true⟩] (by decide) false⟩

end Branchless
